import Mathlib

/-!
Verification of the ps-printer-app core (src/ps-printer-app.c) against its
natural-language specification.  Each section shallowly embeds one part of
the C source as executable Lean definitions and proves (or refutes) the
corresponding claims.
-/

set_option maxRecDepth 10000

/-! ## Base85 encoder (`ps_ascii85`, src/ps-printer-app.c lines 231-315)

The C function keeps `static` state: the current output column `col` and
0-3 pending bytes `remaining`/`num_remaining`.  Output bytes written to the
`FILE` stream are modelled as a list of byte codes. -/

/-- Byte stream written to the output `FILE`. -/
abbrev Out := List Nat

/-- The `static` state of `ps_ascii85`: current column and the pending
(carry) bytes `remaining[0..num_remaining-1]`. -/
structure A85State where
  col : Nat
  remaining : List Nat
deriving Repr, DecidableEq

/-- Initial encoder state (`col = 0`, `num_remaining = 0`). -/
def a85init : A85State := { col := 0, remaining := [] }

/-- The five output characters for a non-zero group, lines 284-292:
`c[4]=(b%85)+'!'; b/=85; c[3]=(b%85)+'!'; ... c[0]=b+'!'` (note: no `%85`
on `c[0]`). -/
def a85chars (b : Nat) : List Nat :=
  [b / 85 / 85 / 85 / 85 + 33,
   b / 85 / 85 / 85 % 85 + 33,
   b / 85 / 85 % 85 + 33,
   b / 85 % 85 + 33,
   b % 85 + 33]

/-- Emit one encoded group, lines 277-296: a single `'z'` (byte 122) for a
zero word, otherwise five base-85 characters; the column advances by 1
resp. 5. -/
def emitGroup (col b : Nat) : Nat × Out :=
  if b = 0 then (col + 1, [122]) else (col + 5, a85chars b)

/-- Line wrap, lines 302-306: when the column has reached at least 75 a
newline (byte 10) is written and the column resets.  Note the check runs
only after a whole group was written. -/
def wrapNl (col : Nat) : Nat × Out :=
  if 75 ≤ col then (0, [10]) else (col, [])

/-- One iteration `i` of the `for (b = 0, i = 0; i < 4; i ++)` loop at
lines 251-265.  `none` models the early `return` at line 263 (pending
bytes stored).  The source statement `b << 8;` at line 253 computes a
shift and discards the result (it is not `b <<= 8`), so `b` is left
unchanged by it; the model preserves this faithfully. -/
def a85step (rem data : List Nat) (last : Bool) (i b : Nat) : Option Nat :=
  if i < rem.length then some (b ||| rem.getD i 0)
  else if i - rem.length < data.length then some (b ||| data.getD (i - rem.length) 0)
  else if !last then none
  else some b

/-- The completed four-iteration loop of lines 251-265, unrolled.
`none` = the early `return` path (store `remaining := rem ++ data`). -/
def a85buildB (rem data : List Nat) (last : Bool) : Option Nat :=
  (a85step rem data last 0 0).bind fun b0 =>
  (a85step rem data last 1 b0).bind fun b1 =>
  (a85step rem data last 2 b1).bind fun b2 =>
  a85step rem data last 3 b2

/-- The `while (num_remaining + length > 0)` loop of lines 247-307.
Returns (new pending bytes, new column, bytes written).  `fuel` bounds the
number of iterations; `ps_ascii85` passes enough fuel for the loop to run
to completion (each iteration consumes input or clears the carry). -/
def a85loop : Nat → List Nat → Nat → List Nat → Bool → List Nat × Nat × Out
  | 0, rem, col, _, _ => (rem, col, [])
  | fuel + 1, rem, col, data, last =>
    if rem.length + data.length = 0 then (rem, col, [])
    else if 0 < rem.length ∨ data.length < 4 then
      match a85buildB rem data last with
      | none =>
        -- early return, lines 260-263: memcpy pending bytes, keep col
        (rem ++ data, col, [])
      | some b =>
        -- lines 266-269: i = 4 - num_remaining, clipped to length;
        -- num_remaining = 0
        let i := min (4 - rem.length) data.length
        let e := emitGroup col b
        let w := wrapNl e.1
        let r := a85loop fuel [] w.1 (data.drop i) last
        (r.1, r.2.1, e.2 ++ w.2 ++ r.2.2)
    else
      -- fast path, lines 271-275: big-endian word from four data bytes
      let b := ((((data.getD 0 0 <<< 8) ||| data.getD 1 0) <<< 8) |||
                data.getD 2 0) <<< 8 ||| data.getD 3 0
      let e := emitGroup col b
      let w := wrapNl e.1
      let r := a85loop fuel rem w.1 (data.drop 4) last
      (r.1, r.2.1, e.2 ++ w.2 ++ r.2.2)

/-- `ps_ascii85(outputfp, data, length, last_data)`, lines 231-315: runs the
encoding loop and, on `last_data`, appends the end marker `"~>\n"`
(bytes 126 62 10) and resets `col` and `num_remaining` (lines 309-314). -/
def ps_ascii85 (st : A85State) (data : List Nat) (last : Bool) : A85State × Out :=
  let r := a85loop (st.remaining.length + data.length + 1) st.remaining st.col data last
  if last then ({ col := 0, remaining := [] }, r.2.2 ++ [126, 62, 10])
  else ({ col := r.2.1, remaining := r.1 }, r.2.2)

/-- Feed a byte sequence to the encoder in the given chunk splitting
(each chunk a non-last call), then a final empty `last_data` call, and
collect the concatenated text output. -/
def feedChunks (chunks : List (List Nat)) : Out :=
  let p := chunks.foldl
    (fun (p : A85State × Out) ch =>
      let r := ps_ascii85 p.1 ch false
      (r.1, p.2 ++ r.2))
    (a85init, [])
  p.2 ++ (ps_ascii85 p.1 [] true).2

/-! A standard base-85 decoder, as described by the round-trip claim:
characters offset from `'!'`, `'z'` shorthand for an all-zero group, a
reduced-character final partial group (k characters, padded with `'u'`,
yielding k-1 bytes), `"~>"` terminator, other bytes (whitespace) skipped. -/

/-- Value of five base-85 digit characters as a 32-bit word. -/
def a85group (ds : List Nat) : Nat := ds.foldl (fun a d => a * 85 + (d - 33)) 0

/-- The four bytes of a full 5-character group. -/
def a85fullBytes (ds : List Nat) : List Nat :=
  let v := a85group ds
  [v / 2 ^ 24 % 256, v / 2 ^ 16 % 256, v / 2 ^ 8 % 256, v % 256]

/-- Decoder main loop; `grp` accumulates the current group's characters. -/
def a85decodeGo : List Nat → List Nat → List Nat
  | [], _ => []
  | c :: cs, grp =>
    if c = 126 then
      -- '~' terminator: flush a reduced final group of 2..5 characters
      if 2 ≤ grp.length then
        (a85fullBytes (grp ++ List.replicate (5 - grp.length) 117)).take
          (grp.length - 1)
      else []
    else if c = 122 ∧ grp = [] then [0, 0, 0, 0] ++ a85decodeGo cs []
    else if 33 ≤ c ∧ c ≤ 117 then
      if grp.length = 4 then a85fullBytes (grp ++ [c]) ++ a85decodeGo cs []
      else a85decodeGo cs (grp ++ [c])
    else a85decodeGo cs grp

/-- Standard base-85 decode of an encoder output stream. -/
def a85decode (s : Out) : List Nat := a85decodeGo s []

/-! ## Line-length accounting for the encoder output -/

/-- Process a byte stream: collect the lengths of the newline-separated
lines, starting with a current line already `cur` characters long; the
final (unterminated) line length is included last. -/
def lineGo : List Nat → Nat → List Nat
  | [], cur => [cur]
  | c :: cs, cur => if c = 10 then cur :: lineGo cs 0 else lineGo cs (cur + 1)

/-- Length of the current (unterminated) line after processing a stream. -/
def lineCur : List Nat → Nat → Nat
  | [], cur => cur
  | c :: cs, cur => lineCur cs (if c = 10 then 0 else cur + 1)

/-- Lengths of all output lines of a stream (last entry: the trailing
unterminated line). -/
def lineLengths (out : Out) : List Nat := lineGo out 0

theorem lineGo_ne_nil (a : List Nat) (cur : Nat) : lineGo a cur ≠ [] := by
  induction a generalizing cur with
  | nil => simp [lineGo]
  | cons c cs ih => simp only [lineGo]; split <;> simp [ih]

theorem lineGo_append (a b : List Nat) (cur : Nat) :
    lineGo (a ++ b) cur = (lineGo a cur).dropLast ++ lineGo b (lineCur a cur) := by
  induction a generalizing cur with
  | nil => simp [lineGo, lineCur]
  | cons c cs ih =>
    simp only [List.cons_append, List.append_eq, lineGo, lineCur]
    by_cases h : c = 10
    · simp only [if_pos h]
      rw [ih 0, List.dropLast_cons_of_ne_nil (lineGo_ne_nil cs 0)]
      simp
    · simp only [if_neg h]
      exact ih (cur + 1)

theorem lineCur_append (a b : List Nat) (cur : Nat) :
    lineCur (a ++ b) cur = lineCur b (lineCur a cur) := by
  induction a generalizing cur with
  | nil => simp [lineCur]
  | cons c cs ih =>
    simp only [List.cons_append, lineCur]
    exact ih _

theorem lineGo_no_nl (a : List Nat) (cur : Nat) (h : ∀ c ∈ a, c ≠ 10) :
    lineGo a cur = [cur + a.length] := by
  induction a generalizing cur with
  | nil => simp [lineGo]
  | cons c cs ih =>
    have hc : c ≠ 10 := h c (by simp)
    simp only [lineGo, if_neg hc]
    rw [ih (cur + 1) (fun d hd => h d (by simp [hd]))]
    have hl : (c :: cs).length = cs.length + 1 := List.length_cons c cs
    congr 1
    omega

theorem lineCur_no_nl (a : List Nat) (cur : Nat) (h : ∀ c ∈ a, c ≠ 10) :
    lineCur a cur = cur + a.length := by
  induction a generalizing cur with
  | nil => simp [lineCur]
  | cons c cs ih =>
    have hc : c ≠ 10 := h c (by simp)
    simp only [lineCur, if_neg hc]
    rw [ih (cur + 1) (fun d hd => h d (by simp [hd]))]
    have hl : (c :: cs).length = cs.length + 1 := List.length_cons c cs
    omega

/-! ## Properties of the emitted groups -/

theorem emitGroup_col (col b : Nat) :
    (emitGroup col b).1 = col + (emitGroup col b).2.length := by
  unfold emitGroup
  split <;> simp [a85chars]

theorem emitGroup_len (col b : Nat) : (emitGroup col b).2.length ≤ 5 := by
  unfold emitGroup
  split <;> simp [a85chars]

theorem emitGroup_no_nl (col b : Nat) : ∀ c ∈ (emitGroup col b).2, c ≠ 10 := by
  unfold emitGroup
  split <;> intro c hc <;> simp [a85chars] at hc <;> omega

/-- Line-length invariant of one group emission followed by the wrap check
and an arbitrary continuation satisfying the invariant at the new column. -/
theorem emit_glue (col b : Nat) (k : Nat → List Nat × Nat × Out)
    (hcol : col ≤ 74)
    (hk : ∀ c2, c2 ≤ 74 →
      (∀ n ∈ lineGo (k c2).2.2 c2, n ≤ 79) ∧
      lineCur (k c2).2.2 c2 = (k c2).2.1 ∧ (k c2).2.1 ≤ 74) :
    (∀ n ∈ lineGo ((emitGroup col b).2 ++ (wrapNl (emitGroup col b).1).2 ++
        (k (wrapNl (emitGroup col b).1).1).2.2) col, n ≤ 79) ∧
    lineCur ((emitGroup col b).2 ++ (wrapNl (emitGroup col b).1).2 ++
        (k (wrapNl (emitGroup col b).1).1).2.2) col =
      (k (wrapNl (emitGroup col b).1).1).2.1 ∧
    (k (wrapNl (emitGroup col b).1).1).2.1 ≤ 74 := by
  have hc1 : (emitGroup col b).1 = col + (emitGroup col b).2.length :=
    emitGroup_col col b
  have hlen : (emitGroup col b).2.length ≤ 5 := emitGroup_len col b
  have hnl : ∀ c ∈ (emitGroup col b).2, c ≠ 10 := emitGroup_no_nl col b
  have hb79 : (emitGroup col b).1 ≤ 79 := by omega
  have hgo1 : lineGo (emitGroup col b).2 col = [(emitGroup col b).1] := by
    rw [lineGo_no_nl _ _ hnl, hc1]
  have hcur1 : lineCur (emitGroup col b).2 col = (emitGroup col b).1 := by
    rw [lineCur_no_nl _ _ hnl, hc1]
  unfold wrapNl
  by_cases hw : 75 ≤ (emitGroup col b).1
  · simp only [if_pos hw]
    have h0 := hk 0 (by omega)
    constructor
    · intro n hn
      rw [List.append_assoc, lineGo_append, hgo1, hcur1] at hn
      simp only [List.dropLast_single, List.nil_append] at hn
      have : lineGo ([10] ++ (k 0).2.2) (emitGroup col b).1 =
          (emitGroup col b).1 :: lineGo (k 0).2.2 0 := by
        simp [lineGo]
      rw [this] at hn
      rcases List.mem_cons.mp hn with h | h
      · omega
      · exact h0.1 n h
    · constructor
      · rw [List.append_assoc, lineCur_append, hcur1]
        have : lineCur ([10] ++ (k 0).2.2) (emitGroup col b).1 =
            lineCur (k 0).2.2 0 := by simp [lineCur]
        rw [this, h0.2.1]
      · exact h0.2.2
  · simp only [if_neg hw]
    have hle : (emitGroup col b).1 ≤ 74 := by omega
    have h0 := hk (emitGroup col b).1 hle
    constructor
    · intro n hn
      rw [List.append_assoc, lineGo_append, hgo1, hcur1] at hn
      simp only [List.dropLast_single, List.nil_append, List.nil_append] at hn
      exact h0.1 n hn
    · constructor
      · rw [List.append_assoc, lineCur_append, hcur1]
        simp only [List.nil_append]
        exact h0.2.1
      · exact h0.2.2

/-- Main loop invariant: starting from a column of at most 74, every
completed output line of the loop is at most 79 characters long, the
column tracks the current unterminated line, and the final column is
again at most 74. -/
theorem a85loop_lines (fuel : Nat) :
    ∀ rem col data last, col ≤ 74 →
      (∀ n ∈ lineGo (a85loop fuel rem col data last).2.2 col, n ≤ 79) ∧
      lineCur (a85loop fuel rem col data last).2.2 col =
        (a85loop fuel rem col data last).2.1 ∧
      (a85loop fuel rem col data last).2.1 ≤ 74 := by
  induction fuel with
  | zero =>
    intro rem col data last hcol
    simp [a85loop, lineGo, lineCur]
    exact ⟨by omega, hcol⟩
  | succ fuel ih =>
    intro rem col data last hcol
    rw [a85loop]
    by_cases h0 : rem.length + data.length = 0
    · simp only [if_pos h0]
      refine ⟨?_, rfl, hcol⟩
      intro n hn
      simp [lineGo] at hn
      omega
    · simp only [if_neg h0]
      by_cases h1 : 0 < rem.length ∨ data.length < 4
      · simp only [if_pos h1]
        cases hb : a85buildB rem data last with
        | none =>
          refine ⟨?_, rfl, hcol⟩
          intro n hn
          simp [lineGo] at hn
          omega
        | some b =>
          exact emit_glue col b
            (fun c2 => a85loop fuel [] c2
              (data.drop (min (4 - rem.length) data.length)) last)
            hcol (fun c2 hc2 => ih [] c2 _ last hc2)
      · simp only [if_neg h1]
        exact emit_glue col _
          (fun c2 => a85loop fuel rem c2 (data.drop 4) last)
          hcol (fun c2 hc2 => ih rem c2 _ last hc2)

theorem mem_of_mem_dropLast {l : List Nat} {n : Nat} (h : n ∈ l.dropLast) :
    n ∈ l :=
  (List.dropLast_sublist l).subset h

theorem ps_ascii85_false_def (st : A85State) (data : List Nat) :
    ps_ascii85 st data false =
      ({ col := (a85loop (st.remaining.length + data.length + 1)
           st.remaining st.col data false).2.1,
         remaining := (a85loop (st.remaining.length + data.length + 1)
           st.remaining st.col data false).1 },
       (a85loop (st.remaining.length + data.length + 1)
         st.remaining st.col data false).2.2) := rfl

theorem ps_ascii85_true_def (st : A85State) (data : List Nat) :
    ps_ascii85 st data true =
      ({ col := 0, remaining := [] },
       (a85loop (st.remaining.length + data.length + 1)
         st.remaining st.col data true).2.2 ++ [126, 62, 10]) := rfl

/-- Per-call line-length invariant for `ps_ascii85`. -/
theorem ps_ascii85_lines (st : A85State) (data : List Nat) (last : Bool)
    (h : st.col ≤ 74) :
    (∀ n ∈ lineGo (ps_ascii85 st data last).2 st.col, n ≤ 79) ∧
    lineCur (ps_ascii85 st data last).2 st.col = (ps_ascii85 st data last).1.col ∧
    (ps_ascii85 st data last).1.col ≤ 74 := by
  have hl := a85loop_lines (st.remaining.length + data.length + 1)
    st.remaining st.col data last h
  cases last with
  | false => rw [ps_ascii85_false_def]; exact hl
  | true =>
    rw [ps_ascii85_true_def]
    refine ⟨?_, ?_, Nat.zero_le 74⟩
    · intro n hn
      rw [lineGo_append] at hn
      rcases List.mem_append.mp hn with hmem | hmem
      · exact hl.1 n (mem_of_mem_dropLast hmem)
      · have hfin : lineGo [126, 62, 10]
            (lineCur (a85loop (st.remaining.length + data.length + 1)
              st.remaining st.col data true).2.2 st.col) =
            [lineCur (a85loop (st.remaining.length + data.length + 1)
              st.remaining st.col data true).2.2 st.col + 2, 0] := by
          simp [lineGo]
        rw [hfin] at hmem
        have hc := hl.2.1
        have hb := hl.2.2
        rcases List.mem_cons.mp hmem with h1 | h1
        · omega
        · simp at h1
          omega
    · rw [lineCur_append]
      simp [lineCur]

/-- Session-level line-length bound: folding any chunk sequence through the
encoder (then flushing) keeps every output line at 79 characters or less. -/
theorem feedChunks_aux (chunks : List (List Nat)) :
    ∀ (st : A85State) (acc : Out), st.col ≤ 74 → lineCur acc 0 = st.col →
    (∀ n ∈ lineGo acc 0, n ≤ 79) →
    ∀ n ∈ lineGo ((chunks.foldl
        (fun (p : A85State × Out) ch =>
          let r := ps_ascii85 p.1 ch false
          (r.1, p.2 ++ r.2)) (st, acc)).2 ++
      (ps_ascii85 (chunks.foldl
        (fun (p : A85State × Out) ch =>
          let r := ps_ascii85 p.1 ch false
          (r.1, p.2 ++ r.2)) (st, acc)).1 [] true).2) 0, n ≤ 79 := by
  induction chunks with
  | nil =>
    intro st acc h1 h2 h3 n hn
    simp only [List.foldl_nil] at hn
    rw [lineGo_append, h2] at hn
    rcases List.mem_append.mp hn with hm | hm
    · exact h3 n (mem_of_mem_dropLast hm)
    · exact (ps_ascii85_lines st [] true h1).1 n hm
  | cons ch chs ih =>
    intro st acc h1 h2 h3
    simp only [List.foldl_cons]
    have hst := ps_ascii85_lines st ch false h1
    intro n hn
    refine ih (ps_ascii85 st ch false).1 (acc ++ (ps_ascii85 st ch false).2)
      hst.2.2 ?_ ?_ n hn
    · rw [lineCur_append, h2, hst.2.1]
    · intro m hm
      rw [lineGo_append, h2] at hm
      rcases List.mem_append.mp hm with hmm | hmm
      · exact h3 m (mem_of_mem_dropLast hmm)
      · exact hst.1 m hmm

/-- Claim C8, counterexample: the claim says no output line carries more
than 75 encoding characters.  Feeding 71 all-zero groups (each encoded as
one `'z'`) followed by one non-zero group in a single call produces a line
of 76 characters, because the wrap check at line 302 runs only after a
whole group has been written and tests `col >= 75`. -/
theorem claim_C8_counterexample :
    ¬ (∀ n ∈ lineLengths
        ((ps_ascii85 a85init (List.replicate 284 0 ++ [1, 2, 3, 4]) false).2),
        n ≤ 75) := by
  decide

/-- Claim C8, amended: the encoder writes a newline whenever the tracked
column count reaches *or exceeds* 75 after a whole group (1 or 5
characters) was written, so an output line can carry up to 79 (not 75)
encoding characters; for every byte sequence fed in arbitrary chunk
splittings followed by a final flush, no output line exceeds 79
characters. -/
theorem claim_C8_amended_theorem (chunks : List (List Nat)) :
    ∀ n ∈ lineLengths (feedChunks chunks), n ≤ 79 := by
  intro n hn
  exact feedChunks_aux chunks a85init [] (Nat.zero_le 74) rfl
    (by intro m hm; simp [lineGo] at hm; omega) n hn

theorem claim_C8_amended_witness :
    7 ∈ lineLengths (feedChunks [[1, 2, 3, 4]]) ∧ 7 ≤ 79 :=
  ⟨by decide, claim_C8_amended_theorem [[1, 2, 3, 4]] 7 (by decide)⟩

/-- Claim C9: calling the encoder with zero-length data and `last_data`
false is a no-op for every reachable state (0-3 pending bytes, any
column): no output is written and the state is unchanged.  (With pending
bytes the loop body runs, but the inner `for` hits the early-return path
at line 263 with `length == 0`, storing back the same pending bytes.) -/
theorem claim_C9_theorem (st : A85State) (h : st.remaining.length ≤ 3) :
    ps_ascii85 st [] false = (st, []) := by
  obtain ⟨col, rem⟩ := st
  rcases rem with _ | ⟨a, _ | ⟨b, _ | ⟨c, _ | ⟨d, rest⟩⟩⟩⟩
  · rfl
  · rfl
  · rfl
  · rfl
  · exfalso
    simp [List.length_cons] at h

theorem claim_C9_witness :
    (A85State.mk 37 [1, 2]).remaining.length ≤ 3 ∧
    ps_ascii85 (A85State.mk 37 [1, 2]) [] false = (A85State.mk 37 [1, 2], []) :=
  ⟨by decide, claim_C9_theorem (A85State.mk 37 [1, 2]) (by decide)⟩

/-- Claim C1 (code bug in the source): the round-trip claim fails because
the statement `b << 8;` at line 253 discards the shifted value (a slip for
`b <<= 8`), so whenever the carry-buffer path assembles a group the word
is the OR of its bytes instead of the big-endian composition.  Feeding
0x01 0x02 0x03 0x04 one byte at a time and flushing yields a stream that
decodes to 00 00 00 07; the same bytes in a single aligned call (which
takes the fast path at line 273) round-trip correctly. -/
theorem claim_C1_bug_eval :
    a85decode (feedChunks [[1], [2], [3], [4]]) = [0, 0, 0, 7] ∧
    a85decode (feedChunks [[1, 2, 3, 4]]) = [1, 2, 3, 4] ∧
    ([0, 0, 0, 7] : List Nat) ≠ [1, 2, 3, 4] := by
  refine ⟨by decide, by decide, by decide⟩

/-! ## Option resolver (`ps_create_job_data`, src/ps-printer-app.c 490-882)

The function populates a `cups_option_t` list in a fixed step order.  The
external collaborators (PPD cache lookups, IPP attribute lookups) are
modelled as inputs in `JobEnv`; the CUPS option-list primitives are
modelled after their library semantics (`cupsAddOption` replaces the value
of an existing name, else appends; lookups are ASCII-case-insensitive).
The C local `choicestr` is threaded explicitly because the source reuses
it across steps without resetting it (notably in the OutputBin block). -/

/-- `cups_option_t` list: (name, value) pairs in insertion order. -/
abbrev Opts := List (String × String)

/-- ASCII `tolower` on one character, as `strcasecmp` applies it. -/
def lowerChar (c : Char) : Char :=
  if 65 ≤ c.toNat ∧ c.toNat ≤ 90 then Char.ofNat (c.toNat + 32) else c

/-- `!strcasecmp(a, b)`: ASCII-case-insensitive string equality. -/
def strcaseeq (a b : String) : Bool :=
  a.data.map lowerChar == b.data.map lowerChar

/-- `cupsGetOption(name, num_options, options)`: the value of the named
option, or NULL (`none`). -/
def cupsGetOption (name : String) (opts : Opts) : Option String :=
  (opts.find? (fun p => strcaseeq p.1 name)).map (fun p => p.2)

/-- `cupsAddOption(name, value, num_options, &options)`: replaces the
value if the (case-insensitively matched) name is present, otherwise
appends the pair. -/
def cupsAddOption (name value : String) (opts : Opts) : Opts :=
  if opts.any (fun p => strcaseeq p.1 name) then
    opts.map (fun p => if strcaseeq p.1 name then (p.1, value) else p)
  else opts ++ [(name, value)]

/-- Add a list of (option, choice) pairs in order (used for finishing
options and for the preset bucket, lines 563-576 and 668-671). -/
def applyList (l : List (String × String)) (o : Opts) : Opts :=
  l.foldl (fun o p => cupsAddOption p.1 p.2 o) o

/-- The value of the last pair in `l` whose name matches `k`
(case-insensitively), if any. -/
def lastAssigned (k : String) (l : List (String × String)) : Option String :=
  l.foldl (fun acc p => if strcaseeq p.1 k then some p.2 else acc) none

/-- `strstr` scan over character lists. -/
def strstrGo : List Char → List Char → Bool
  | [], n => n.isEmpty
  | h :: rest, n => if n.isPrefixOf (h :: rest) then true else strstrGo rest n

/-- `strstr(hay, needle) != NULL`. -/
def strstrB (hay needle : String) : Bool := strstrGo hay.data needle.data

/-- Result of `sscanf(choice->choice, "%dx%d", &xres, &yres)` on a
Resolution choice name: no integer parsed (j <= 0), one integer, or two. -/
inductive ResParse
  | noInt
  | one (x : Nat)
  | two (x y : Nat)
deriving Repr, DecidableEq

/-- One vendor PPD option as seen by the loop at lines 796-853: its PPD
keyword, the PPD choice name selected by the attribute/choice matching
(NULL if the lookups failed or nothing matched), and the result of
`ppdInstallableConflict` for that pair. -/
structure VendorOpt where
  keyword : String
  choice : Option String
  conflict : Bool
deriving Repr, DecidableEq

/-- Inputs of one `ps_create_job_data` run: the job options record and
the results of all external (PPD cache / IPP) lookups the function
performs. -/
structure JobEnv where
  firstPage : Int
  lastPage : Int
  punchRequested : Bool
  stapleRequested : Bool
  trimRequested : Bool
  punchOpts : List (String × String)
  stapleOpts : List (String × String)
  trimOpts : List (String × String)
  pageSizeChoice : Option String
  sourceOption : String
  inputSlotChoice : Option String
  mediaTypeChoice : Option String
  orientation : Int
  bins : List (String × String)
  outputBin : String
  colorDevice : Bool
  colorModeColorOrAuto : Bool
  quality : Int
  presets : Nat → Nat → List (String × String)
  ppdHasChoice : String → String → Bool
  scalingAuto : Bool
  scalingAutoFit : Bool
  scalingFill : Bool
  scalingFit : Bool
  scalingNone : Bool
  resReq : Nat × Nat
  resAttrPresent : Bool
  resChoices : List (String × ResParse)
  defaultResolution : Option String
  sidesRequested1 : Bool
  sidesRequested2Long : Bool
  sidesRequested2Short : Bool
  sidesOption : Option String
  sides1Choice : Option String
  sides2LongChoice : Option String
  sides2ShortChoice : Option String
  vendors : List VendorOpt
  multipleDocHandling : Option String

/-- `ps_have_force_gray` (lines 2117-2186): probe a fixed ordered list of
grayscale-forcing option settings in the PPD; first hit wins.  `has o c`
models `ppdFindOption(ppd, o) != NULL && ppdFindChoice(option, c)`. -/
def ps_have_force_gray (has : String → String → Bool) : Option (String × String) :=
  if has "ColorModel" "Gray" then some ("ColorModel", "Gray")
  else if has "ColorModel" "Grayscale" then some ("ColorModel", "Grayscale")
  else if has "HPColorMode" "grayscale" then some ("HPColorMode", "grayscale")
  else if has "BRMonoColor" "Mono" then some ("BRMonoColor", "Mono")
  else if has "CNIJSGrayScale" "1" then some ("CNIJSGrayScale", "1")
  else if has "HPColorAsGray" "True" then some ("HPColorAsGray", "True")
  else none

/-- The Resolution choice-matching loop, lines 730-740: first choice whose
parsed resolution matches the request exactly or symmetrically
(`j == 1` duplicates `xres` into `yres`). -/
def resMatch : List (String × ResParse) → Nat × Nat → Option String
  | [], _ => none
  | (name, p) :: rest, req =>
    match p with
    | ResParse.noInt => resMatch rest req
    | ResParse.one x =>
      if req.1 = x ∧ (req.2 = x ∨ (req.2 = 0 ∧ x = x)) then some name
      else resMatch rest req
    | ResParse.two x y =>
      if req.1 = x ∧ (req.2 = y ∨ (req.2 = 0 ∧ x = y)) then some name
      else resMatch rest req

/-- The fallback Resolution string, lines 748-756: `"<x>x<y>dpi"` when two
distinct values are requested, else `"<x>dpi"`. -/
def formatRes (req : Nat × Nat) : String :=
  if req.2 ≠ 0 ∧ req.1 ≠ req.2 then
    toString req.1 ++ "x" ++ toString req.2 ++ "dpi"
  else toString req.1 ++ "dpi"

def intMax : Int := 2147483647

/-- Step 1, page-ranges (lines 547-558), including the 0 → 1 and
0 → INT_MAX normalization. -/
def step_pageRanges (env : JobEnv) (o : Opts) : Opts :=
  let fp := if env.firstPage = 0 then 1 else env.firstPage
  let lp := if env.lastPage = 0 then intMax else env.lastPage
  if 1 < fp ∨ lp < intMax then
    cupsAddOption "page-ranges" (toString fp ++ "-" ++ toString lp) o
  else o

/-- Step 2, finishings (lines 561-576): `ppdCacheGetFinishingOptions`
appends the mapped options for each requested finishing. -/
def step_finishings (env : JobEnv) (o : Opts) : Opts :=
  let o := if env.punchRequested then applyList env.punchOpts o else o
  let o := if env.stapleRequested then applyList env.stapleOpts o else o
  if env.trimRequested then applyList env.trimOpts o else o

/-- Step 3a, PageSize (lines 579-605): the `choicestr` local receives the
`ppdCacheGetPageSize` result (also when NULL). -/
def step_pageSize (env : JobEnv) (o : Opts) : Opts × Option String :=
  match env.pageSizeChoice with
  | some c => (cupsAddOption "PageSize" c o, some c)
  | none => (o, none)

/-- Step 3b, InputSlot (lines 607-615); the option name is
`pc->source_option`. -/
def step_inputSlot (env : JobEnv) (o : Opts) : Opts × Option String :=
  match env.inputSlotChoice with
  | some c => (cupsAddOption env.sourceOption c o, some c)
  | none => (o, none)

/-- Step 3c, MediaType (lines 617-623). -/
def step_mediaType (env : JobEnv) (o : Opts) : Opts × Option String :=
  match env.mediaTypeChoice with
  | some c => (cupsAddOption "MediaType" c o, some c)
  | none => (o, none)

/-- Steps 1-3 composed; the returned `Option String` is the value of the
C local `choicestr` after the MediaType block. -/
def psOptsThroughMediaType (env : JobEnv) : Opts × Option String :=
  let o := step_pageRanges env []
  let o := step_finishings env o
  let p := step_pageSize env o
  let q := step_inputSlot env p.1
  step_mediaType env q.1

/-- Step 4, orientation-requested (lines 625-635): only the enumerated
range `IPP_ORIENT_PORTRAIT (3) <= v < IPP_ORIENT_NONE (7)` passes. -/
def step_orientation (env : JobEnv) (o : Opts) : Opts :=
  if 3 ≤ env.orientation ∧ env.orientation < 7 then
    cupsAddOption "orientation-requested" (toString env.orientation) o
  else o

/-- Step 5, OutputBin (lines 637-649).  Faithful to the source: the
`choicestr` local is NOT reset before the bin loop, so when no bin name
matches the requested one, the stale value from the MediaType lookup is
used; there is no fallback to the marked default bin. -/
def step_outputBin (env : JobEnv) (o : Opts) (choicestr : Option String) :
    Opts × Option String :=
  if env.bins ≠ [] then
    let c := env.bins.foldl
      (fun acc p => if p.1 == env.outputBin then some p.2 else acc) choicestr
    match c with
    | some v => (cupsAddOption "OutputBin" v o, some v)
    | none => (o, none)
  else (o, choicestr)

/-- `pcm` selection, lines 654-659: 1 = color presets, 0 = mono. -/
def pcmOf (env : JobEnv) : Nat :=
  if env.colorDevice ∧ env.colorModeColorOrAuto then 1 else 0

/-- `pq` selection, lines 660-665 (IPP print-quality 3 = draft, 5 = high,
anything else = normal). -/
def pqOf (env : JobEnv) : Nat :=
  if env.quality = 3 then 0 else if env.quality = 5 then 2 else 1

/-- Step 6, presets (lines 651-671): add every pair of the selected
bucket via `cupsAddOption`. -/
def step_presets (env : JobEnv) (o : Opts) : Opts :=
  applyList (env.presets (pcmOf env) (pqOf env)) o

/-- Step 7, forced grayscale (lines 673-690), run only in the mono case;
`ps_have_force_gray` writes through `&choicestr` in both outcomes
(lines 2128-2183). -/
def step_forceGray (env : JobEnv) (o : Opts) (choicestr : Option String) :
    Opts × Option String :=
  if pcmOf env = 0 then
    match ps_have_force_gray env.ppdHasChoice with
    | some oc =>
      let o := if cupsGetOption oc.1 o = none then cupsAddOption oc.1 oc.2 o else o
      let o := if cupsGetOption "ColorModel" o = none then
                 cupsAddOption "ColorModel" "Gray" o else o
      (o, some oc.2)
    | none =>
      let o := if cupsGetOption "ColorModel" o = none then
                 cupsAddOption "ColorModel" "Gray" o else o
      (o, none)
  else (o, choicestr)

/-- Step 8, print-scaling (lines 692-716): one `cupsAddOption` per set
flag, in source order (later flags replace earlier ones). -/
def step_scaling (env : JobEnv) (o : Opts) : Opts :=
  let o := if env.scalingAuto then cupsAddOption "print-scaling" "auto" o else o
  let o := if env.scalingAutoFit then cupsAddOption "print-scaling" "auto-fit" o else o
  let o := if env.scalingFill then cupsAddOption "print-scaling" "fill" o else o
  let o := if env.scalingFit then cupsAddOption "print-scaling" "fit" o else o
  if env.scalingNone then cupsAddOption "print-scaling" "none" o else o

/-- Step 9, Resolution (lines 718-766): runs only when no Resolution
option is set yet (the presets may have set one). -/
def step_resolution (env : JobEnv) (o : Opts) : Opts :=
  if cupsGetOption "Resolution" o = none then
    if env.resReq.1 ≠ 0 ∧ env.resAttrPresent ∧ env.resChoices ≠ [] then
      match resMatch env.resChoices env.resReq with
      | some name => cupsAddOption "Resolution" name o
      | none => o
    else if env.resReq.1 ≠ 0 then
      cupsAddOption "Resolution" (formatRes env.resReq) o
    else
      match env.defaultResolution with
      | some v => cupsAddOption "Resolution" v o
      | none => o
  else o

/-- Step 10, Duplex/sides (lines 768-790). -/
def step_duplex (env : JobEnv) (o : Opts) : Opts :=
  if env.sidesRequested1 ∨ env.sidesRequested2Long ∨ env.sidesRequested2Short then
    match env.sidesOption with
    | some so =>
      if env.sidesRequested1 ∧ env.sides1Choice.isSome then
        cupsAddOption so (env.sides1Choice.getD "") o
      else if env.sidesRequested2Long ∧ env.sides2LongChoice.isSome then
        cupsAddOption so (env.sides2LongChoice.getD "") o
      else if env.sidesRequested2Short ∧ env.sides2ShortChoice.isSome then
        cupsAddOption so (env.sides2ShortChoice.getD "") o
      else o
    | none => o
  else o

/-- Step 11, vendor PPD options (lines 792-853): each iteration resets
`choicestr` to NULL, then adds the matched choice unless it conflicts
with the installable-accessory configuration. -/
def step_vendor (env : JobEnv) (o : Opts) (choicestr : Option String) :
    Opts × Option String :=
  env.vendors.foldl
    (fun (p : Opts × Option String) v =>
      match v.choice with
      | some c =>
        (if v.conflict = false then cupsAddOption v.keyword c p.1 else p.1,
         some c)
      | none => (p.1, none))
    (o, choicestr)

/-- Step 12, Collate (lines 855-869): when neither "uncollate" nor
"collate" occurs in the attribute value, the stale `choicestr` is used
(`cupsAddOption` with a NULL value is a no-op). -/
def step_collate (env : JobEnv) (o : Opts) (choicestr : Option String) : Opts :=
  match env.multipleDocHandling with
  | some s =>
    let c := if strstrB s "uncollate" then some "False"
             else if strstrB s "collate" then some "True"
             else choicestr
    match c with
    | some v => cupsAddOption "Collate" v o
    | none => o
  | none => o

/-- `ps_create_job_data` option population, lines 547-869: all steps in
source order with the `choicestr` local threaded through. -/
def ps_create_job_data (env : JobEnv) : Opts :=
  let m := psOptsThroughMediaType env
  let o := step_orientation env m.1
  let ob := step_outputBin env o m.2
  let o := step_presets env ob.1
  let fg := step_forceGray env o ob.2
  let o := step_scaling env fg.1
  let o := step_resolution env o
  let o := step_duplex env o
  let vd := step_vendor env o fg.2
  step_collate env vd.1 vd.2

/-! ## Properties of the CUPS option-list primitives -/

theorem strcaseeq_symm {a b : String} (h : strcaseeq a b = true) :
    strcaseeq b a = true := by
  simp [strcaseeq] at h ⊢
  exact h.symm

theorem strcaseeq_trans {a b c : String} (h1 : strcaseeq a b = true)
    (h2 : strcaseeq b c = true) : strcaseeq a c = true := by
  simp [strcaseeq] at h1 h2 ⊢
  exact h1.trans h2

/-- Specialized unfolding of `find?` on a cons cell for the key-lookup
predicate. -/
theorem find?_key_cons (p : String × String) (l : List (String × String))
    (k : String) :
    List.find? (fun q : String × String => strcaseeq q.1 k) (p :: l) =
      if strcaseeq p.1 k = true then some p
      else List.find? (fun q : String × String => strcaseeq q.1 k) l := by
  cases h : strcaseeq p.1 k <;> simp [List.find?, h]

/-- `find?` over a value-replacing map commutes (the map preserves keys). -/
theorem find?_map_keys (o : Opts) (n v k : String) :
    (o.map (fun p => if strcaseeq p.1 n then (p.1, v) else p)).find?
        (fun p => strcaseeq p.1 k) =
      (o.find? (fun p => strcaseeq p.1 k)).map
        (fun p => if strcaseeq p.1 n then (p.1, v) else p) := by
  induction o with
  | nil => rfl
  | cons p rest ih =>
    rw [List.map_cons, find?_key_cons, find?_key_cons]
    have hkey : (if strcaseeq p.1 n = true then (p.1, v) else p).1 = p.1 := by
      split <;> rfl
    rw [hkey]
    by_cases hp : strcaseeq p.1 k = true
    · simp [hp]
    · simp [hp, ih]

/-- The central `cupsAddOption`/`cupsGetOption` interaction: adding a
value makes the lookup of that name return it, and leaves every other
name's lookup unchanged. -/
theorem cupsGetOption_cupsAddOption (n v k : String) (o : Opts) :
    cupsGetOption k (cupsAddOption n v o) =
      if strcaseeq n k = true then some v else cupsGetOption k o := by
  unfold cupsAddOption cupsGetOption
  by_cases ha : (o.any fun p => strcaseeq p.1 n) = true
  · rw [if_pos ha, find?_map_keys]
    by_cases hnk : strcaseeq n k = true
    · rw [if_pos hnk]
      obtain ⟨q, hq, hqn⟩ := List.any_eq_true.mp ha
      cases hf : o.find? (fun p => strcaseeq p.1 k) with
      | none =>
        exact absurd (strcaseeq_trans hqn hnk)
          (by simpa using List.find?_eq_none.mp hf q hq)
      | some r =>
        have hrk : strcaseeq r.1 k = true := by simpa using List.find?_some hf
        have hrn : strcaseeq r.1 n = true :=
          strcaseeq_trans hrk (strcaseeq_symm hnk)
        simp [hrn]
    · rw [if_neg hnk]
      cases hf : o.find? (fun p => strcaseeq p.1 k) with
      | none => rfl
      | some r =>
        have hrk : strcaseeq r.1 k = true := by simpa using List.find?_some hf
        have hrn : strcaseeq r.1 n = false := by
          cases h : strcaseeq r.1 n
          · rfl
          · exact absurd (strcaseeq_trans (strcaseeq_symm h) hrk) hnk
        simp [hrn]
  · rw [if_neg ha, List.find?_append, find?_key_cons]
    by_cases hnk : strcaseeq n k = true
    · have hfo : o.find? (fun q : String × String => strcaseeq q.1 k) = none := by
        rw [List.find?_eq_none]
        intro q hq hqk
        apply ha
        exact List.any_eq_true.mpr ⟨q, hq,
          strcaseeq_trans (by simpa using hqk) (strcaseeq_symm hnk)⟩
      rw [hfo, if_pos hnk]
      simp [hnk, Option.or]
    · cases hf : o.find? (fun q : String × String => strcaseeq q.1 k) with
      | none => simp [hnk, Option.or, List.find?]
      | some r => simp [hnk, Option.or]

theorem lastAssigned_append (k : String) (l : List (String × String))
    (p : String × String) :
    lastAssigned k (l ++ [p]) =
      if strcaseeq p.1 k = true then some p.2 else lastAssigned k l := by
  unfold lastAssigned
  rw [List.foldl_append]
  rfl

theorem applyList_append (l : List (String × String)) (p : String × String)
    (o : Opts) :
    applyList (l ++ [p]) o = cupsAddOption p.1 p.2 (applyList l o) := by
  unfold applyList
  rw [List.foldl_append]
  rfl

/-- Adding a pair list leaves the lookup of its last-assigned key at the
last assigned value, regardless of what was set before. -/
theorem applyList_lastAssigned_some (l : List (String × String)) (k x : String)
    (o : Opts) (h : lastAssigned k l = some x) :
    cupsGetOption k (applyList l o) = some x := by
  induction l using List.reverseRecOn with
  | nil => simp [lastAssigned] at h
  | append_singleton l p ih =>
    rw [applyList_append, cupsGetOption_cupsAddOption]
    rw [lastAssigned_append] at h
    by_cases hp : strcaseeq p.1 k = true
    · rw [if_pos hp] at h
      rw [if_pos hp]
      exact h
    · rw [if_neg hp] at h
      rw [if_neg hp]
      exact ih h

/-- Adding under a name that does not match `"Resolution"` leaves the
Resolution lookup unchanged. -/
theorem getRes_add_ne (n v : String) (o : Opts)
    (h : strcaseeq n "Resolution" = false) :
    cupsGetOption "Resolution" (cupsAddOption n v o) =
      cupsGetOption "Resolution" o := by
  rw [cupsGetOption_cupsAddOption, if_neg (by simp [h])]

theorem getRes_presets (env : JobEnv) (o : Opts) (x : String)
    (h : lastAssigned "Resolution" (env.presets (pcmOf env) (pqOf env)) = some x) :
    cupsGetOption "Resolution" (step_presets env o) = some x :=
  applyList_lastAssigned_some _ _ _ _ h

/-- Every option name `ps_have_force_gray` can return comes from its
fixed candidate list; none of them is `"Resolution"`. -/
theorem forceGray_not_res (has : String → String → Bool)
    (oc : String × String) (h : ps_have_force_gray has = some oc) :
    strcaseeq oc.1 "Resolution" = false := by
  unfold ps_have_force_gray at h
  repeat' split at h
  all_goals first
    | (injection h with h2; subst h2; decide)
    | injection h

theorem getRes_forceGray (env : JobEnv) (o : Opts) (cs : Option String) :
    cupsGetOption "Resolution" (step_forceGray env o cs).1 =
      cupsGetOption "Resolution" o := by
  unfold step_forceGray
  by_cases h : pcmOf env = 0
  · rw [if_pos h]
    cases hg : ps_have_force_gray env.ppdHasChoice with
    | none =>
      dsimp only
      split
      · exact getRes_add_ne _ _ _ (by decide)
      · rfl
    | some oc =>
      have hne := forceGray_not_res env.ppdHasChoice oc hg
      dsimp only
      split
      · split
        · rw [getRes_add_ne _ _ _ (by decide), getRes_add_ne _ _ _ hne]
        · rw [getRes_add_ne _ _ _ hne]
      · split
        · rw [getRes_add_ne _ _ _ (by decide)]
        · rfl
  · rw [if_neg h]

theorem getRes_scaling (env : JobEnv) (o : Opts) :
    cupsGetOption "Resolution" (step_scaling env o) =
      cupsGetOption "Resolution" o := by
  have t : ∀ (c : Bool) (v : String) (o : Opts),
      cupsGetOption "Resolution"
          (if c = true then cupsAddOption "print-scaling" v o else o) =
        cupsGetOption "Resolution" o := by
    intro c v o
    split
    · exact getRes_add_ne _ _ _ (by decide)
    · rfl
  unfold step_scaling
  dsimp only
  rw [t, t, t, t, t]

theorem getRes_resolution_keep (env : JobEnv) (o : Opts)
    (h : ¬ cupsGetOption "Resolution" o = none) :
    step_resolution env o = o := by
  unfold step_resolution
  rw [if_neg h]

theorem getRes_duplex (env : JobEnv)
    (hso : ∀ s, env.sidesOption = some s → strcaseeq s "Resolution" = false)
    (o : Opts) :
    cupsGetOption "Resolution" (step_duplex env o) =
      cupsGetOption "Resolution" o := by
  unfold step_duplex
  split
  · cases hs : env.sidesOption with
    | none => rfl
    | some so =>
      have hne := hso so hs
      dsimp only
      split
      · exact getRes_add_ne _ _ _ hne
      · split
        · exact getRes_add_ne _ _ _ hne
        · split
          · exact getRes_add_ne _ _ _ hne
          · rfl
  · rfl

theorem getRes_vendor_fold (vs : List VendorOpt)
    (hv : ∀ v ∈ vs, strcaseeq v.keyword "Resolution" = false) :
    ∀ (p : Opts × Option String),
      cupsGetOption "Resolution"
        (vs.foldl (fun (p : Opts × Option String) v =>
          match v.choice with
          | some c =>
            (if v.conflict = false then cupsAddOption v.keyword c p.1 else p.1,
             some c)
          | none => (p.1, none)) p).1 = cupsGetOption "Resolution" p.1 := by
  induction vs with
  | nil => intro p; rfl
  | cons v vs ih =>
    intro p
    rw [List.foldl_cons, ih (fun w hw => hv w (List.mem_cons_of_mem v hw))]
    cases hc : v.choice with
    | none => rfl
    | some c =>
      dsimp only
      split
      · exact getRes_add_ne _ _ _ (hv v (List.mem_cons_self v vs))
      · rfl

theorem getRes_vendor (env : JobEnv)
    (hv : ∀ v ∈ env.vendors, strcaseeq v.keyword "Resolution" = false)
    (o : Opts) (cs : Option String) :
    cupsGetOption "Resolution" (step_vendor env o cs).1 =
      cupsGetOption "Resolution" o := by
  unfold step_vendor
  exact getRes_vendor_fold env.vendors hv (o, cs)

theorem getRes_collate (env : JobEnv) (o : Opts) (cs : Option String) :
    cupsGetOption "Resolution" (step_collate env o cs) =
      cupsGetOption "Resolution" o := by
  unfold step_collate
  cases env.multipleDocHandling with
  | none => rfl
  | some s =>
    dsimp only
    split
    · exact getRes_add_ne _ _ _ (by decide)
    · rfl

/-- Claim C3: when the selected preset bucket sets Resolution = X, the
resolver's output contains Resolution = X — regardless of any explicitly
requested resolution (the step at lines 719-722 runs only when no
Resolution option is set yet, and the presets have already set one).  The
hypotheses on the sides option and the vendor options reflect the source:
`pc->sides_option` is a Duplex-family keyword chosen by the PPD cache, and
`ps_driver_setup` (lines 1013-1023, 1792-1800) never registers an option
named "Resolution" as a vendor option. -/
theorem claim_C3_theorem (env : JobEnv) (x : String)
    (hbucket : lastAssigned "Resolution"
      (env.presets (pcmOf env) (pqOf env)) = some x)
    (hsides : ∀ s, env.sidesOption = some s → strcaseeq s "Resolution" = false)
    (hvend : ∀ v ∈ env.vendors, strcaseeq v.keyword "Resolution" = false) :
    cupsGetOption "Resolution" (ps_create_job_data env) = some x := by
  unfold ps_create_job_data
  dsimp only
  rw [getRes_collate, getRes_vendor env hvend, getRes_duplex env hsides,
      getRes_resolution_keep, getRes_scaling, getRes_forceGray,
      getRes_presets env _ x hbucket]
  rw [getRes_scaling, getRes_forceGray, getRes_presets env _ x hbucket]
  simp

/-- A neutral environment: no finishings, no presets, no vendor options,
no explicit requests; used as the base of the concrete test inputs. -/
def envBase : JobEnv :=
  { firstPage := 1
    lastPage := 0
    punchRequested := false
    stapleRequested := false
    trimRequested := false
    punchOpts := []
    stapleOpts := []
    trimOpts := []
    pageSizeChoice := some "A4"
    sourceOption := "InputSlot"
    inputSlotChoice := none
    mediaTypeChoice := none
    orientation := 7
    bins := []
    outputBin := ""
    colorDevice := false
    colorModeColorOrAuto := false
    quality := 4
    presets := fun _ _ => []
    ppdHasChoice := fun _ _ => false
    scalingAuto := false
    scalingAutoFit := false
    scalingFill := false
    scalingFit := false
    scalingNone := false
    resReq := (0, 0)
    resAttrPresent := false
    resChoices := []
    defaultResolution := none
    sidesRequested1 := false
    sidesRequested2Long := false
    sidesRequested2Short := false
    sidesOption := none
    sides1Choice := none
    sides2LongChoice := none
    sides2ShortChoice := none
    vendors := []
    multipleDocHandling := none }

/-- Witness input for claim C3: a mono/draft preset bucket sets
`Resolution=150x150dpi` while the job explicitly requests 600 dpi, which
is a valid model choice (`600dpi`). -/
def envC3 : JobEnv :=
  { envBase with
    quality := 3
    presets := fun c q =>
      if c = 0 ∧ q = 0 then [("Resolution", "150x150dpi")] else []
    resReq := (600, 600)
    resAttrPresent := true
    resChoices := [("600dpi", ResParse.one 600),
                   ("150x150dpi", ResParse.two 150 150)]
    sidesRequested1 := true
    sidesOption := some "Duplex"
    sides1Choice := some "None" }

theorem claim_C3_witness :
    lastAssigned "Resolution" (envC3.presets (pcmOf envC3) (pqOf envC3)) =
      some "150x150dpi" ∧
    cupsGetOption "Resolution" (ps_create_job_data envC3) =
      some "150x150dpi" :=
  ⟨by decide,
   claim_C3_theorem envC3 "150x150dpi" (by decide)
     (by
       intro s hs
       have h0 : envC3.sidesOption = some "Duplex" := rfl
       rw [h0] at hs
       injection hs with h2
       rw [← h2]
       decide)
     (by decide)⟩

/-- Input for claim C4: the model exposes one output bin
(`tray-1` → `Tray1`, which is also the marked default), the job requests
the unknown bin `rear`, and the MediaType lookup resolved to `Plain`. -/
def envC4 : JobEnv :=
  { envBase with
    mediaTypeChoice := some "Plain"
    bins := [("tray-1", "Tray1")]
    outputBin := "rear" }

/-- Claim C4 (code bug in the source): the claimed fallback to the marked
default bin does not exist.  The bin block at lines 637-649 neither
resets `choicestr` nor consults the marked default: with an unmatched bin
name the stale MediaType choice (`Plain`) is recorded as `OutputBin`, and
with no MediaType choice no `OutputBin` entry is produced at all — in
neither case the marked default `Tray1`. -/
theorem claim_C4_bug_eval :
    cupsGetOption "OutputBin" (ps_create_job_data envC4) = some "Plain" ∧
    cupsGetOption "OutputBin"
      (ps_create_job_data { envC4 with mediaTypeChoice := none }) = none := by
  exact ⟨by decide, by decide⟩

/-- Input for claim C5: the MediaType step resolves `Plain`, and the
selected (mono, normal) preset bucket carries `MediaType=Glossy`. -/
def envC5 : JobEnv :=
  { envBase with
    mediaTypeChoice := some "Plain"
    presets := fun c q =>
      if c = 0 ∧ q = 1 then [("MediaType", "Glossy")] else [] }

/-- Claim C5, counterexample: the claim says that once a step has set a
keyword, no later step changes its value.  Here the media step (step 3)
sets `MediaType=Plain`, but the presets step later replaces it with
`Glossy` (`cupsAddOption` overwrites an existing name), so the final
value differs from the one assigned by the first step that set it. -/
theorem claim_C5_counterexample :
    cupsGetOption "MediaType" (psOptsThroughMediaType envC5).1 = some "Plain" ∧
    cupsGetOption "MediaType" (ps_create_job_data envC5) = some "Glossy" := by
  exact ⟨by decide, by decide⟩

/-- Claim C5, amended: later steps may overwrite an already-set keyword,
because `cupsAddOption` replaces the value of an existing name; in
particular, after the presets step every keyword assigned by the selected
bucket holds the bucket's last-assigned value, regardless of what earlier
steps had set.  (Only the forced-grayscale and resolution steps guard on
"not yet set".) -/
theorem claim_C5_amended_theorem (env : JobEnv) (o : Opts) (k x : String)
    (h : lastAssigned k (env.presets (pcmOf env) (pqOf env)) = some x) :
    cupsGetOption k (step_presets env o) = some x :=
  applyList_lastAssigned_some _ _ _ _ h

theorem claim_C5_amended_witness :
    lastAssigned "MediaType" (envC5.presets (pcmOf envC5) (pqOf envC5)) =
      some "Glossy" ∧
    cupsGetOption "MediaType"
      (step_presets envC5 [("MediaType", "Plain")]) = some "Glossy" :=
  ⟨by decide, claim_C5_amended_theorem envC5 [("MediaType", "Plain")]
    "MediaType" "Glossy" (by decide)⟩

/-! ## Page streaming (`ps_rwriteline` lines 3748-3768, `ps_rendpage`
lines 3503-3544)

`job_data->line_count` is reset to 0 by `ps_rstartpage` (line 3666),
incremented once per incoming raster line, and compared against the
header's `cupsHeight`.  A trace of `ps_ascii85` calls (data bytes,
`last_data` flag) records what is fed to the encoder. -/

/-- The colorspaces named in the raster callbacks. -/
inductive CupsCS
  | w
  | sw
  | rgb
  | srgb
  | adobergb
  | k
  | cmyk
deriving Repr, DecidableEq

/-- Padding byte, lines 3522-3526: 0x00 for the black-primary colorspaces
`CUPS_CSPACE_K` and `CUPS_CSPACE_CMYK`, 0xFF otherwise. -/
def fillerByte (cs : CupsCS) : Nat :=
  if cs = CupsCS.k ∨ cs = CupsCS.cmyk then 0 else 255

/-- One `ps_rwriteline` call (lines 3748-3768): encode the line only while
`line_count < cupsHeight`; the count is incremented in every case.  The
`pixels` list holds the line's `cupsBytesPerLine` bytes. -/
def ps_rwriteline (H : Nat) (line_count : Nat) (pixels : List Nat) :
    Nat × List (List Nat × Bool) :=
  if line_count < H then (line_count + 1, [(pixels, false)])
  else (line_count + 1, [])

/-- The per-page sequence of `ps_rwriteline` calls. -/
def writeLines (H : Nat) : List (List Nat) → Nat → Nat × List (List Nat × Bool)
  | [], st => (st, [])
  | px :: rest, st =>
    let r := ps_rwriteline H st px
    let r2 := writeLines H rest r.1
    (r2.1, r.2 ++ r2.2)

/-- `ps_rendpage` (lines 3503-3544): synthesize filler lines of
`cupsBytesPerLine` bytes of the colorspace's padding byte while
`line_count < cupsHeight`, then issue the final encoder flush
(`ps_ascii85(devout, NULL, 0, 1)`). -/
def ps_rendpage (H BPL : Nat) (cs : CupsCS) (line_count : Nat) :
    List (List Nat × Bool) :=
  (if line_count < H then
    List.replicate (H - line_count) (List.replicate BPL (fillerByte cs), false)
  else []) ++ [([], true)]

/-- One whole page: `ps_rstartpage` resets the count, every received
raster line goes through `ps_rwriteline`, then `ps_rendpage` runs.  The
result is the trace of encoder calls for the page's image data. -/
def pageSession (H BPL : Nat) (cs : CupsCS) (lines : List (List Nat)) :
    List (List Nat × Bool) :=
  let p := writeLines H lines 0
  p.2 ++ ps_rendpage H BPL cs p.1

theorem writeLines_spec (H : Nat) (lines : List (List Nat)) :
    ∀ st : Nat, writeLines H lines st =
      (st + lines.length,
       (lines.take (H - st)).map (fun px => (px, false))) := by
  induction lines with
  | nil => intro st; simp [writeLines]
  | cons px rest ih =>
    intro st
    rw [writeLines]
    unfold ps_rwriteline
    by_cases h : st < H
    · rw [if_pos h]
      dsimp only
      rw [ih (st + 1)]
      have h1 : H - st = (H - (st + 1)) + 1 := by omega
      rw [h1, List.take_succ_cons]
      simp only [Prod.mk.injEq, List.map_cons, List.singleton_append,
        List.length_cons]
      exact ⟨by omega, trivial⟩
    · rw [if_neg h]
      dsimp only
      rw [ih (st + 1)]
      have h1 : H - st = 0 := by omega
      have h2 : H - (st + 1) = 0 := by omega
      rw [h1, h2]
      simp only [Prod.mk.injEq, List.take_zero, List.map_nil, List.nil_append,
        List.length_cons]
      exact ⟨by omega, trivial⟩

/-- Claim C6: a page declared with height H feeds exactly the first H
received lines (in order, non-final) plus `H - L` synthesized filler
lines of the full per-line width — each byte 0x00 for black-primary
colorspaces (K, CMYK) and 0xFF otherwise — to the encoder, followed by
the single final flush; received lines with index at or beyond H are not
encoded but still counted (the filler count uses the total received
count `L`, so for `L ≥ H` no filler is produced). -/
theorem claim_C6_theorem (H BPL : Nat) (cs : CupsCS) (lines : List (List Nat)) :
    pageSession H BPL cs lines =
      ((lines.take H).map (fun px => (px, false))) ++
      List.replicate (H - lines.length)
        (List.replicate BPL (fillerByte cs), false) ++
      [([], true)] := by
  unfold pageSession
  rw [writeLines_spec]
  dsimp only
  unfold ps_rendpage
  rw [Nat.zero_add, Nat.sub_zero]
  by_cases h : lines.length < H
  · rw [if_pos h, List.append_assoc]
  · rw [if_neg h]
    have h1 : H - lines.length = 0 := by omega
    rw [h1]
    simp

/-! ## Device default polling (`ps_poll_device_option_defaults`,
src/ps-printer-app.c lines 2470-2844)

The device channel is modelled by a scripted read behaviour per option (a
list of successive `papplDeviceRead` results; an empty string is a read
returning no bytes, and once the script is exhausted every further read
returns no bytes).  Writes to the device are recorded as an event trace;
the PostScript payload text of the fixed preamble strings is abstracted
into event constructors. -/

/-- One write event on the device channel. -/
inductive DevWrite
  | jclHeader
  | banner
  | errHandler
  | queryKeyword (kw : String)
  | querySource (q : String)
  | jclEnd
  | eot
deriving Repr, DecidableEq

/-- `isspace(c) || iscntrl(c)` for the byte range the poller trims:
space and all control characters (0x00-0x20, 0x7F). -/
def isWsCtl (c : Char) : Bool := c.toNat ≤ 32 ∨ c.toNat = 127

/-- Trim whitespace/control characters from both ends (lines 2728-2743). -/
def trimWsCtl (l : List Char) : List Char :=
  ((l.reverse.dropWhile isWsCtl).reverse).dropWhile isWsCtl

/-- One option of a poll pass: keyword, number of choices, the option's
query snippet (NULL if the PPD has no `?keyword` attribute), its declared
choice names, and the scripted device reads for its read loop. -/
structure PollOption where
  keyword : String
  numChoices : Nat
  query : Option String
  choices : List String
  reads : List String
deriving Repr

/-- One PPD option group. -/
structure PollGroup where
  name : String
  options : List PollOption
deriving Repr

/-- The poller's inputs: whether `papplPrinterOpenDevice` succeeds,
whether the PPD has JCL begin/end scripts, the PPD groups, and the scope
flag (`installable`). -/
structure PollEnv where
  deviceOpens : Bool
  hasJclBegin : Bool
  hasJclEnd : Bool
  groups : List PollGroup
  installable : Bool
deriving Repr

/-- `strncasecmp(group->name, "Installable", 11) == 0` (line 2571). -/
def isInstallableGroup (name : String) : Bool :=
  strcaseeq (String.mk (name.data.take 11)) "Installable"

/-- Scope filter, lines 2571-2577: installable passes treat only the
"Installable" groups, ordinary passes only the others. -/
def groupInScope (installable : Bool) (g : PollGroup) : Bool :=
  if isInstallableGroup g.name then installable else !installable

/-- An option is queried iff it has at least 2 choices and a query
snippet (lines 2585-2598). -/
def optionEligible (opt : PollOption) : Bool :=
  decide (2 ≤ opt.numChoices) && opt.query.isSome

/-- The response read loop for one option (lines 2688-2802): up to 100
read attempts; data accumulates until a line terminator arrives; the
trimmed line is classified: a colon marks an interpreter error message
(give up on this option), a declared choice (matched case-insensitively,
as `ppdFindChoice` does) is recorded, the "Unknown" sentinel gives up,
and anything else discards the buffer and keeps reading.  Returns the
recorded choice text, or `none` when the option stays unresolved. -/
def pollReadLoop (choices : List String) :
    Nat → List String → List Char → Option String
  | 0, _, _ => none
  | k + 1, reads, buf =>
    let chunk := reads.headD ""
    let rest := reads.tail
    if chunk.isEmpty then
      -- bytes <= 0: sleep 100 ms and retry (lines 2705-2711)
      pollReadLoop choices k rest buf
    else
      let buf2 := buf ++ chunk.data
      if buf2.getLast? ≠ some (Char.ofNat 13) ∧
         buf2.getLast? ≠ some (Char.ofNat 10) then
        -- no line terminator yet: go on reading (lines 2720-2722)
        pollReadLoop choices k rest buf2
      else
        let t := trimWsCtl buf2
        if t = [] then
          -- blank line: skip (lines 2749-2753)
          pollReadLoop choices k rest []
        else if t.contains (Char.ofNat 58) then
          -- error-handler message (lines 2759-2770): give up
          none
        else if choices.any (fun c => strcaseeq c (String.mk t)) then
          -- valid choice (lines 2776, 2792-2801): record it
          some (String.mk t)
        else if strcaseeq (String.mk t) "Unknown" then
          -- "Unknown" sentinel (lines 2778-2785): give up
          none
        else
          -- unclassifiable: discard and continue reading (lines 2787-2789)
          pollReadLoop choices k rest []

/-- Process the options of one group (lines 2579-2815): skipped options
write nothing; each eligible option gets its query written and its read
loop run; a resolved value is added to the defaults. -/
def pollGroupOptions : List PollOption → Opts → Opts × List DevWrite
  | [], defaults => (defaults, [])
  | opt :: rest, defaults =>
    if optionEligible opt then
      let w := [DevWrite.queryKeyword opt.keyword,
                DevWrite.querySource (opt.query.getD "")]
      match pollReadLoop opt.choices 100 opt.reads [] with
      | some v =>
        let r := pollGroupOptions rest (cupsAddOption opt.keyword v defaults)
        (r.1, w ++ r.2)
      | none =>
        let r := pollGroupOptions rest defaults
        (r.1, w ++ r.2)
    else
      pollGroupOptions rest defaults

/-- The group loop (lines 2562-2816). -/
def pollGroups (installable : Bool) : List PollGroup → Opts → Opts × List DevWrite
  | [], defaults => (defaults, [])
  | g :: rest, defaults =>
    if groupInScope installable g then
      let r := pollGroupOptions g.options defaults
      let r2 := pollGroups installable rest r.1
      (r2.1, r.2 ++ r2.2)
    else
      pollGroups installable rest defaults

/-- `ps_poll_device_option_defaults` (lines 2470-2844): returns the
number of polled defaults, the defaults list (`*defaults`), and the trace
of device writes.  A failed device open returns 0 with a NULL list and
performs no writes (lines 2497-2509); otherwise the PostScript-mode
preamble and error handler are sent, all in-scope options are queried,
and the end-of-job script (or a single EOT byte) closes the session. -/
def ps_poll_device_option_defaults (env : PollEnv) : Nat × Opts × List DevWrite :=
  if env.deviceOpens = false then (0, [], [])
  else
    let header := (if env.hasJclBegin then [DevWrite.jclHeader] else []) ++
      [DevWrite.banner, DevWrite.errHandler]
    let r := pollGroups env.installable env.groups []
    let tail := if env.hasJclEnd then [DevWrite.jclEnd] else [DevWrite.eot]
    (r.1.length, r.1, header ++ r.2 ++ tail)

/-- Number of query writes in a trace. -/
def countQueries : List DevWrite → Nat
  | [] => 0
  | DevWrite.querySource _ :: rest => countQueries rest + 1
  | _ :: rest => countQueries rest

/-- Number of eligible options in the in-scope groups. -/
def numEligibleGroups (installable : Bool) : List PollGroup → Nat
  | [] => 0
  | g :: rest =>
    (if groupInScope installable g then
      (g.options.filter optionEligible).length else 0) +
    numEligibleGroups installable rest

/-- Number of eligible options a poll pass will query. -/
def numEligible (env : PollEnv) : Nat :=
  numEligibleGroups env.installable env.groups

theorem countQueries_append (a b : List DevWrite) :
    countQueries (a ++ b) = countQueries a + countQueries b := by
  induction a with
  | nil => simp [countQueries]
  | cons w rest ih =>
    cases w <;> simp [countQueries, ih] <;> omega

theorem pollGroupOptions_fail (opts : List PollOption)
    (h : ∀ opt ∈ opts, pollReadLoop opt.choices 100 opt.reads [] = none) :
    ∀ defaults : Opts,
      (pollGroupOptions opts defaults).1 = defaults ∧
      countQueries (pollGroupOptions opts defaults).2 =
        (opts.filter optionEligible).length := by
  induction opts with
  | nil => intro defaults; exact ⟨rfl, rfl⟩
  | cons opt rest ih =>
    intro defaults
    have hopt := h opt (List.mem_cons_self opt rest)
    have ihr := ih (fun o ho => h o (List.mem_cons_of_mem opt ho))
    rw [pollGroupOptions]
    by_cases he : optionEligible opt = true
    · rw [if_pos he, hopt]
      dsimp only
      refine ⟨(ihr defaults).1, ?_⟩
      rw [countQueries_append, (ihr defaults).2]
      simp [countQueries, List.filter_cons, he]
      omega
    · rw [if_neg he]
      refine ⟨(ihr defaults).1, ?_⟩
      rw [(ihr defaults).2]
      simp [List.filter_cons, he]

theorem pollGroups_fail (installable : Bool) (gs : List PollGroup)
    (h : ∀ g ∈ gs, ∀ opt ∈ g.options,
      pollReadLoop opt.choices 100 opt.reads [] = none) :
    ∀ defaults : Opts,
      (pollGroups installable gs defaults).1 = defaults ∧
      countQueries (pollGroups installable gs defaults).2 =
        numEligibleGroups installable gs := by
  induction gs with
  | nil => intro defaults; exact ⟨rfl, rfl⟩
  | cons g rest ih =>
    intro defaults
    have hg := pollGroupOptions_fail g.options
      (h g (List.mem_cons_self g rest))
    have ihr := ih (fun g2 hg2 => h g2 (List.mem_cons_of_mem g hg2))
    rw [pollGroups, numEligibleGroups]
    by_cases hs : groupInScope installable g = true
    · rw [if_pos hs, if_pos hs]
      dsimp only
      rw [(hg defaults).1]
      refine ⟨(ihr defaults).1, ?_⟩
      rw [countQueries_append, (hg defaults).2, (ihr defaults).2]
    · rw [if_neg hs, if_neg hs]
      refine ⟨(ihr defaults).1, ?_⟩
      rw [(ihr defaults).2]
      omega

/-- Claim C7: in a poll session where no option's query yields a response
matching one of that option's declared choices (interpreter faults,
"Unknown" sentinels, retry-ceiling exhaustion, or only unclassifiable data),
the poll returns a zero count and an empty (NULL) defaults list — the
soft overall-failure signal — and it still sends the query for every
eligible option: a per-option failure never aborts the iteration. -/
theorem claim_C7_theorem (env : PollEnv)
    (hopen : env.deviceOpens = true)
    (hfail : ∀ g ∈ env.groups, ∀ opt ∈ g.options,
      pollReadLoop opt.choices 100 opt.reads [] = none) :
    (ps_poll_device_option_defaults env).1 = 0 ∧
    (ps_poll_device_option_defaults env).2.1 = [] ∧
    countQueries (ps_poll_device_option_defaults env).2.2 = numEligible env := by
  unfold ps_poll_device_option_defaults
  rw [if_neg (by rw [hopen]; simp)]
  dsimp only
  have hp := pollGroups_fail env.installable env.groups hfail []
  rw [hp.1]
  refine ⟨rfl, rfl, ?_⟩
  rw [countQueries_append, countQueries_append, hp.2]
  have h1 : countQueries ((if env.hasJclBegin = true then [DevWrite.jclHeader]
      else []) ++ [DevWrite.banner, DevWrite.errHandler]) = 0 := by
    split <;> rfl
  have h2 : countQueries (if env.hasJclEnd = true then [DevWrite.jclEnd]
      else [DevWrite.eot]) = 0 := by
    split <;> rfl
  rw [h1, h2]
  unfold numEligible
  omega

/-- Claim C10: when the device channel cannot be opened, the poll returns
a zero count with a NULL defaults list and performs no device writes at
all (no preamble, no queries, no end-of-job script), raising no error. -/
theorem claim_C10_theorem (env : PollEnv) (h : env.deviceOpens = false) :
    ps_poll_device_option_defaults env = (0, [], []) := by
  unfold ps_poll_device_option_defaults
  rw [if_pos h]

/-- Witness poll input for claim C7: one in-scope group whose three
eligible options fail in the three documented ways (interpreter-error
message with a colon, the "Unknown" sentinel, and a device that never
answers within the 100-attempt ceiling); a fourth option has fewer than
two choices and is skipped. -/
def envC7 : PollEnv :=
  { deviceOpens := true
    hasJclBegin := false
    hasJclEnd := true
    groups := [{ name := "General"
                 options :=
                  [{ keyword := "PageSize"
                     numChoices := 3
                     query := some "currentpagedevice /PageSize get"
                     choices := ["A4", "Letter"]
                     reads := [":PostScript error in ?PageSize: typecheck\n"] }
                   ,
                   { keyword := "Duplex"
                     numChoices := 2
                     query := some "currentpagedevice /Duplex get"
                     choices := ["None", "DuplexNoTumble"]
                     reads := ["Unknown\n"] }
                   ,
                   { keyword := "InputSlot"
                     numChoices := 2
                     query := some "currentpagedevice /InputAttributes get"
                     choices := ["Tray1", "Tray2"]
                     reads := [] }
                   ,
                   { keyword := "MediaType"
                     numChoices := 1
                     query := some "currentpagedevice /MediaType get"
                     choices := ["Plain"]
                     reads := [] }] }]
    installable := false }

theorem claim_C7_witness :
    envC7.deviceOpens = true ∧
    (ps_poll_device_option_defaults envC7).1 = 0 ∧
    (ps_poll_device_option_defaults envC7).2.1 = [] ∧
    countQueries (ps_poll_device_option_defaults envC7).2.2 =
      numEligible envC7 :=
  ⟨rfl, claim_C7_theorem envC7 rfl (by decide)⟩

/-- Witness poll input for claim C10: the device cannot be opened. -/
def envC10 : PollEnv :=
  { envC7 with deviceOpens := false }

theorem claim_C10_witness :
    envC10.deviceOpens = false ∧
    ps_poll_device_option_defaults envC10 = (0, [], []) :=
  ⟨rfl, claim_C10_theorem envC10 rfl⟩

/-! ## MediaReadyTable accessory reprojection (`ps_driver_setup`, update
mode, src/ps-printer-app.c lines 1575-1652)

`driver_data->media_ready` is a fixed array of `PAPPL_MAX_SOURCE`
`pappl_media_col_t` entries, modelled as a list of length 16.  An entry is
its `source` name plus the remaining bytes of the structure, abstracted
as an opaque payload; `memcpy`/`memmove` become list surgery, so
"byte-identical" is equality of `MediaCol` values.  The walk iterates
over the PPD's source list (`pc->sources`, model order) with `j` indexing
both the new available-source array `driver_data->source` (already
recomputed by the section at lines 1399-1432 as the conflict-filtered PPD
sources) and the media-ready table.  An out-of-range read of
`driver_data->source[j]` (possible in the C when trailing PPD sources are
unavailable) yields unspecified bytes; it is modelled as `""`, which
matches no nonempty source name.  Likewise `media_ready[PAPPL_MAX_SOURCE]`
is modelled as a blank entry; the theorems' hypotheses keep the walk away
from both situations' observable effects. -/

def PAPPL_MAX_SOURCE : Nat := 16

/-- `pappl_media_col_t`: the `source` field plus the rest of the
structure's bytes, abstracted as one opaque payload value. -/
structure MediaCol where
  source : String
  payload : Nat
deriving Repr, DecidableEq

/-- A zeroed entry (the terminating item has `source[0] == '\0'`). -/
def blankCol : MediaCol := { source := "", payload := 0 }

/-- `driver_data->media_ready[k]`. -/
def mrAt (mr : List MediaCol) (k : Nat) : MediaCol := mr.getD k blankCol

/-- `driver_data->source[j]`. -/
def srcAt (avail : List String) (j : Nat) : String := avail.getD j ""

/-- The undo-region scan of lines 1593-1596:
`for (k = j; k < PAPPL_MAX_SOURCE && media_ready[k].source[0] &&
strcasecmp(pwg, media_ready[k].source); k ++);` -/
def findUndoAux (mr : List MediaCol) (p : String) : Nat → Nat → Nat
  | 0, k => k
  | fuel + 1, k =>
    if k < PAPPL_MAX_SOURCE ∧ (mrAt mr k).source ≠ "" ∧
       strcaseeq p (mrAt mr k).source = false then
      findUndoAux mr p fuel (k + 1)
    else k

def findUndo (mr : List MediaCol) (p : String) (j : Nat) : Nat :=
  findUndoAux mr p PAPPL_MAX_SOURCE j

/-- The end-of-entries scan of lines 1640-1642:
`for (k = j + 1; k < PAPPL_MAX_SOURCE && media_ready[k].source[0]; k ++);` -/
def findEndAux (mr : List MediaCol) : Nat → Nat → Nat
  | 0, k => k
  | fuel + 1, k =>
    if k < PAPPL_MAX_SOURCE ∧ (mrAt mr k).source ≠ "" then
      findEndAux mr fuel (k + 1)
    else k

def findEnd (mr : List MediaCol) (j : Nat) : Nat :=
  findEndAux mr PAPPL_MAX_SOURCE (j + 1)

/-- Lines 1606-1613 / 1616-1622 common shape:
`memmove(&media_ready[j+1], &media_ready[j], (k-j)*size)` then write
`item` into slot `j`. -/
def insertAt (mr : List MediaCol) (j k : Nat) (item : MediaCol) :
    List MediaCol :=
  mr.take j ++ [item] ++ (mr.drop j).take (k - j) ++ mr.drop (k + 1)

/-- Lines 1637-1648: save `media_ready[j]`, pull the entries below it
down (`memmove(&media_ready[j], &media_ready[j+1], (k-j-1)*size)`), and
drop the saved entry into slot `k - 1`. -/
def evictAt (mr : List MediaCol) (j k : Nat) : List MediaCol :=
  mr.take j ++ (mr.drop (j + 1)).take (k - 1 - j) ++ [mrAt mr j] ++ mr.drop k

/-- The reprojection walk of lines 1577-1651 over the PPD source list.
`avail` is `driver_data->source` (the available sources), `defCol` is
`driver_data->media_default`. -/
def mruGo (avail : List String) (defCol : MediaCol) :
    List String → Nat → List MediaCol → List MediaCol
  | [], _, mr => mr
  | p :: ps, j, mr =>
    if PAPPL_MAX_SOURCE ≤ j then mr
    else if strcaseeq p (srcAt avail j) then
      -- current PPD media source is available (installed)
      let mr2 :=
        if strcaseeq p (mrAt mr j).source then mr
        else
          let k := findUndo mr p j
          if strcaseeq p (mrAt mr k).source then
            -- found in the hidden undo space: rotate it into slot j
            insertAt mr j k (mrAt mr k)
          else
            -- not found: create a new item from the media defaults
            let k2 := if k = PAPPL_MAX_SOURCE then k - 1
                      else if k < PAPPL_MAX_SOURCE - 1 then k + 1
                      else k
            insertAt mr j k2 { defCol with source := srcAt avail j }
      mruGo avail defCol ps (j + 1) mr2
    else
      -- current PPD media source is unavailable (accessory not installed)
      if strcaseeq p (mrAt mr j).source then
        mruGo avail defCol ps j (evictAt mr j (findEnd mr j))
      else
        mruGo avail defCol ps j mr

/-- The whole `if (update)` branch at lines 1575-1652. -/
def mediaReadyUpdate (ppd : List String) (avail : List String)
    (defCol : MediaCol) (mr : List MediaCol) : List MediaCol :=
  mruGo avail defCol ppd 0 mr

/-! Specification-level view of one walk: the nonblank region of the
table (active entries followed by undo entries) is processed into a new
active part and a new undo part. -/

/-- First entry whose source matches `p` case-insensitively. -/
def findEntry (es : List MediaCol) (p : String) : Option MediaCol :=
  es.find? (fun e => strcaseeq p e.source)

/-- Index of the first matching entry (`es.length` when none). -/
def scanIdx (p : String) : List MediaCol → Nat
  | [] => 0
  | e :: rest => if strcaseeq p e.source then 0 else scanIdx p rest + 1

/-- Remove the first matching entry, keep everything else in order. -/
def removeFirst (p : String) : List MediaCol → List MediaCol
  | [] => []
  | e :: rest => if strcaseeq p e.source then rest else e :: removeFirst p rest

/-- What one walk does to the nonblank region, expressed without array
indices: available sources pull their entry out of the region (or make a
fresh default one), unavailable sources that sit at the region's head are
rotated to its end. -/
def specGo (A : String → Bool) (defCol : MediaCol) :
    List String → List MediaCol → List MediaCol × List MediaCol
  | [], es => ([], es)
  | p :: ps, es =>
    if A p then
      let r :=
        match findEntry es p with
        | some _ => specGo A defCol ps (removeFirst p es)
        | none => specGo A defCol ps es
      (((findEntry es p).getD { defCol with source := p }) :: r.1, r.2)
    else
      if strcaseeq p ((es.headD blankCol).source) then
        specGo A defCol ps (es.tail ++ [es.headD blankCol])
      else
        specGo A defCol ps es

/-! Helper lemmas for the media-ready development. -/

theorem strcaseeq_refl (a : String) : strcaseeq a a = true := by
  simp [strcaseeq]

theorem strcaseeq_empty_right {p : String} (h : p ≠ "") :
    strcaseeq p "" = false := by
  cases hc : strcaseeq p ""
  · rfl
  · exfalso
    simp [strcaseeq] at hc
    apply h
    cases p with
    | mk data => simp at hc; simp [hc]

theorem strcaseeq_ne_empty {s t : String} (h : strcaseeq s t = true)
    (hs : s ≠ "") : t ≠ "" := by
  intro ht
  subst ht
  rw [strcaseeq_empty_right hs] at h
  exact Bool.false_ne_true h

theorem srcAt_drop (avail : List String) (j : Nat) :
    srcAt avail j = (avail.drop j).headD "" := by
  induction avail generalizing j with
  | nil => cases j <;> rfl
  | cons a rest ih =>
    cases j with
    | zero => rfl
    | succ j => exact ih j

theorem mrAt_decomp (done rest : List MediaCol) (t : Nat) :
    mrAt (done ++ rest) (done.length + t) = rest.getD t blankCol := by
  unfold mrAt
  rw [List.getD_append_right _ _ _ _ (Nat.le_add_right _ _)]
  congr 1
  omega

theorem scanIdx_le (p : String) (es : List MediaCol) :
    scanIdx p es ≤ es.length := by
  induction es with
  | nil => simp [scanIdx]
  | cons e rest ih =>
    rw [scanIdx]
    split
    · simp
    · simpa [List.length_cons] using ih

theorem findEntry_cons (e : MediaCol) (l : List MediaCol) (p : String) :
    findEntry (e :: l) p =
      if strcaseeq p e.source = true then some e else findEntry l p := by
  cases h : strcaseeq p e.source <;> simp [findEntry, List.find?, h]

theorem scan_found (p : String) (es : List MediaCol)
    (h : scanIdx p es < es.length) :
    strcaseeq p (es.getD (scanIdx p es) blankCol).source = true ∧
    findEntry es p = some (es.getD (scanIdx p es) blankCol) ∧
    removeFirst p es =
      es.take (scanIdx p es) ++ es.drop (scanIdx p es + 1) := by
  induction es with
  | nil => simp at h
  | cons e rest ih =>
    by_cases he : strcaseeq p e.source = true
    · rw [scanIdx, if_pos he] at h ⊢
      refine ⟨he, ?_, ?_⟩
      · rw [findEntry_cons, if_pos he]
        rfl
      · rw [removeFirst, if_pos he]
        simp
    · rw [scanIdx, if_neg he] at h ⊢
      have h2 : scanIdx p rest < rest.length := by
        simp [List.length_cons] at h
        omega
      obtain ⟨ih1, ih2, ih3⟩ := ih h2
      refine ⟨?_, ?_, ?_⟩
      · simpa using ih1
      · rw [findEntry_cons, if_neg he, ih2]
        simp
      · rw [removeFirst, if_neg (by simpa using he)]
        simp only [List.take_succ_cons, List.drop_succ_cons, List.cons_append]
        rw [ih3]

theorem scan_none (p : String) (es : List MediaCol)
    (h : ¬ scanIdx p es < es.length) :
    ∀ e ∈ es, strcaseeq p e.source = false := by
  induction es with
  | nil => simp
  | cons e rest ih =>
    by_cases he : strcaseeq p e.source = true
    · rw [scanIdx, if_pos he] at h
      simp [List.length_cons] at h
    · rw [scanIdx, if_neg he] at h
      intro x hx
      rcases List.mem_cons.mp hx with hx | hx
      · subst hx
        simpa using he
      · exact ih (by simp [List.length_cons] at h ⊢; omega) x hx

theorem scan_lt_of_mem {p : String} {es : List MediaCol} {e : MediaCol}
    (he : e ∈ es) (hm : strcaseeq p e.source = true) :
    scanIdx p es < es.length := by
  by_contra h
  rw [scan_none p es h e he] at hm
  exact Bool.false_ne_true hm

theorem findUndoAux_decomp (p : String) :
    ∀ (es done junk : List MediaCol) (blank : MediaCol) (fuel : Nat),
      done.length + es.length < PAPPL_MAX_SOURCE →
      blank.source = "" →
      (∀ e ∈ es, e.source ≠ "") →
      es.length < fuel →
      findUndoAux (done ++ es ++ blank :: junk) p fuel done.length =
        done.length + scanIdx p es := by
  intro es
  induction es with
  | nil =>
    intro done junk blank fuel hb hblank hes hfuel
    cases fuel with
    | zero => simp at hfuel
    | succ fuel =>
      rw [findUndoAux]
      have hat : mrAt (done ++ [] ++ blank :: junk) done.length = blank := by
        have := mrAt_decomp done (blank :: junk) 0
        simpa using this
      rw [if_neg]
      · simp [scanIdx]
      · rw [hat, hblank]
        simp
  | cons e rest ih =>
    intro done junk blank fuel hb hblank hes hfuel
    cases fuel with
    | zero => simp at hfuel
    | succ fuel =>
      rw [findUndoAux]
      have hat : mrAt (done ++ (e :: rest) ++ blank :: junk) done.length = e := by
        have := mrAt_decomp done ((e :: rest) ++ blank :: junk) 0
        simpa using this
      by_cases hm : strcaseeq p e.source = true
      · rw [if_neg]
        · rw [scanIdx, if_pos hm]
          omega
        · rw [hat, hm]
          simp
      · have hcond : done.length < PAPPL_MAX_SOURCE ∧
            (mrAt (done ++ e :: rest ++ blank :: junk) done.length).source ≠ "" ∧
            strcaseeq p
              (mrAt (done ++ e :: rest ++ blank :: junk) done.length).source =
              false := by
          refine ⟨?_, ?_, ?_⟩
          · simp [List.length_cons] at hb
            omega
          · rw [hat]
            exact hes e (List.mem_cons_self e rest)
          · rw [hat]
            simpa using hm
        rw [if_pos hcond]
        have hre : done ++ (e :: rest) ++ blank :: junk =
            (done ++ [e]) ++ rest ++ blank :: junk := by simp
        rw [hre]
        have hstep := ih (done ++ [e]) junk blank fuel
          (by simp [List.length_cons] at hb ⊢; omega) hblank
          (fun x hx => hes x (List.mem_cons_of_mem e hx))
          (by simp [List.length_cons] at hfuel; omega)
        have hlen : (done ++ [e]).length = done.length + 1 := by simp
        rw [hlen] at hstep
        rw [hstep, scanIdx, if_neg hm]
        omega

theorem findEndAux_decomp :
    ∀ (es done junk : List MediaCol) (blank : MediaCol) (fuel : Nat),
      done.length + es.length < PAPPL_MAX_SOURCE →
      blank.source = "" →
      (∀ e ∈ es, e.source ≠ "") →
      es.length < fuel →
      findEndAux (done ++ es ++ blank :: junk) fuel done.length =
        done.length + es.length := by
  intro es
  induction es with
  | nil =>
    intro done junk blank fuel hb hblank hes hfuel
    cases fuel with
    | zero => simp at hfuel
    | succ fuel =>
      rw [findEndAux]
      have hat : mrAt (done ++ [] ++ blank :: junk) done.length = blank := by
        have := mrAt_decomp done (blank :: junk) 0
        simpa using this
      rw [if_neg]
      · simp
      · rw [hat, hblank]
        simp
  | cons e rest ih =>
    intro done junk blank fuel hb hblank hes hfuel
    cases fuel with
    | zero => simp at hfuel
    | succ fuel =>
      rw [findEndAux]
      have hat : mrAt (done ++ (e :: rest) ++ blank :: junk) done.length = e := by
        have := mrAt_decomp done ((e :: rest) ++ blank :: junk) 0
        simpa using this
      have hcond : done.length < PAPPL_MAX_SOURCE ∧
          (mrAt (done ++ e :: rest ++ blank :: junk) done.length).source ≠ "" := by
        refine ⟨?_, ?_⟩
        · simp [List.length_cons] at hb
          omega
        · rw [hat]
          exact hes e (List.mem_cons_self e rest)
      rw [if_pos hcond]
      have hre : done ++ (e :: rest) ++ blank :: junk =
          (done ++ [e]) ++ rest ++ blank :: junk := by simp
      rw [hre]
      have hstep := ih (done ++ [e]) junk blank fuel
        (by simp [List.length_cons] at hb ⊢; omega) hblank
        (fun x hx => hes x (List.mem_cons_of_mem e hx))
        (by simp [List.length_cons] at hfuel; omega)
      have hlen : (done ++ [e]).length = done.length + 1 := by simp
      rw [hlen] at hstep
      rw [hstep]
      simp [List.length_cons]
      omega

theorem insertAt_decomp (done es junk : List MediaCol) (blank item : MediaCol)
    (t : Nat) (ht : t < es.length) :
    insertAt (done ++ es ++ blank :: junk) done.length (done.length + t) item =
      done ++ [item] ++ (es.take t ++ es.drop (t + 1)) ++ blank :: junk := by
  unfold insertAt
  have h1 : (done ++ es ++ blank :: junk).take done.length = done := by
    rw [List.append_assoc]
    exact List.take_left' rfl
  have h2 : (done ++ es ++ blank :: junk).drop done.length =
      es ++ blank :: junk := by
    rw [List.append_assoc]
    exact List.drop_left' rfl
  have h3 : (es ++ blank :: junk).take (done.length + t - done.length) =
      es.take t := by
    have : done.length + t - done.length = t := by omega
    rw [this]
    exact List.take_append_of_le_length (by omega)
  have h4 : (done ++ es ++ blank :: junk).drop (done.length + t + 1) =
      es.drop (t + 1) ++ blank :: junk := by
    have hd : done.length + t + 1 = done.length + (t + 1) := by omega
    rw [hd, ← List.drop_drop, h2]
    exact List.drop_append_of_le_length (by omega)
  rw [h1, h2, h3, h4]
  simp

theorem evictAt_decomp (done rest junk : List MediaCol) (blank e : MediaCol) :
    evictAt (done ++ (e :: rest) ++ blank :: junk) done.length
        (done.length + 1 + rest.length) =
      done ++ (rest ++ [e]) ++ blank :: junk := by
  unfold evictAt
  have h1 : (done ++ (e :: rest) ++ blank :: junk).take done.length = done := by
    rw [List.append_assoc]
    exact List.take_left' rfl
  have h2 : (done ++ (e :: rest) ++ blank :: junk).drop (done.length + 1) =
      rest ++ blank :: junk := by
    have hr : done ++ (e :: rest) ++ blank :: junk =
        (done ++ [e]) ++ (rest ++ blank :: junk) := by simp
    rw [hr]
    exact List.drop_left' (by simp)
  have h3 : (rest ++ blank :: junk).take
      (done.length + 1 + rest.length - 1 - done.length) = rest := by
    have : done.length + 1 + rest.length - 1 - done.length = rest.length := by
      omega
    rw [this]
    exact List.take_left' rfl
  have h4 : mrAt (done ++ (e :: rest) ++ blank :: junk) done.length = e := by
    have := mrAt_decomp done ((e :: rest) ++ blank :: junk) 0
    simpa using this
  have h5 : (done ++ (e :: rest) ++ blank :: junk).drop
      (done.length + 1 + rest.length) = blank :: junk := by
    have hr : done ++ (e :: rest) ++ blank :: junk =
        ((done ++ [e]) ++ rest) ++ (blank :: junk) := by simp
    rw [hr]
    exact List.drop_left' (by simp; omega)
  rw [h1, h2, h3, h4, h5]
  simp

theorem removeFirst_length {p : String} {es : List MediaCol}
    (h : scanIdx p es < es.length) :
    (removeFirst p es).length + 1 = es.length := by
  rw [(scan_found p es h).2.2]
  have h1 := scanIdx_le p es
  simp [List.length_take, List.length_drop]
  omega

theorem mem_removeFirst_of_not_match {p : String} {es : List MediaCol}
    {e : MediaCol} (he : e ∈ es) (hm : strcaseeq p e.source = false) :
    e ∈ removeFirst p es := by
  induction es with
  | nil => simp at he
  | cons x rest ih =>
    rw [removeFirst]
    rcases List.mem_cons.mp he with hx | hx
    · subst hx
      rw [if_neg (by simp [hm])]
      exact List.mem_cons_self e (removeFirst p rest)
    · split
      · exact hx
      · exact List.mem_cons_of_mem x (ih hx)

theorem mem_of_mem_removeFirst {p : String} {es : List MediaCol}
    {e : MediaCol} (he : e ∈ removeFirst p es) : e ∈ es := by
  induction es with
  | nil => simp [removeFirst] at he
  | cons x rest ih =>
    rw [removeFirst] at he
    split at he
    · exact List.mem_cons_of_mem x he
    · rcases List.mem_cons.mp he with hx | hx
      · subst hx
        exact List.mem_cons_self e rest
      · exact List.mem_cons_of_mem x (ih hx)

theorem mrAt_head (done es junk : List MediaCol) (blank : MediaCol) :
    mrAt (done ++ es ++ blank :: junk) done.length = es.headD blank := by
  have h := mrAt_decomp done (es ++ blank :: junk) 0
  rw [Nat.add_zero] at h
  rw [List.append_assoc, h]
  cases es <;> simp

theorem drop_succ_of_drop {avail : List String} {j : Nat} {x : String}
    {r : List String} (h : avail.drop j = x :: r) :
    avail.drop (j + 1) = r := by
  rw [← List.tail_drop, h]
  rfl

/-- The reprojection walk, decomposed: with `done` entries already placed,
the nonblank region `es` in front of the terminator, and every remaining
available source having an entry in `es` (so no fresh default entries are
created), the walk rewrites the region into the `specGo` view and touches
neither the placed entries, the terminator, nor the junk behind it. -/
theorem mruGo_decomp (A : String → Bool) (defCol : MediaCol) :
    ∀ (ps : List String) (avail : List String)
      (done es junk : List MediaCol) (blank : MediaCol),
      blank.source = "" →
      done.length + es.length ≤ 15 →
      avail.drop done.length = ps.filter A →
      ps.Pairwise (fun a b => strcaseeq a b = false) →
      (∀ p ∈ ps, p ≠ "") →
      (∀ e ∈ es, e.source ≠ "") →
      (∀ s ∈ ps, A s = true → ∃ e ∈ es, strcaseeq s e.source = true) →
      mruGo avail defCol ps done.length (done ++ es ++ blank :: junk) =
        done ++ (specGo A defCol ps es).1 ++ (specGo A defCol ps es).2 ++
          blank :: junk := by
  intro ps
  induction ps with
  | nil =>
    intro avail done es junk blank _ _ _ _ _ _ _
    simp [mruGo, specGo]
  | cons p ps ih =>
    intro avail done es junk blank hblank hb havail hpw hpne hes hfound
    rw [List.pairwise_cons] at hpw
    have hpne1 : p ≠ "" := hpne p (List.mem_cons_self p ps)
    have hpne2 : ∀ q ∈ ps, q ≠ "" := fun q hq => hpne q (List.mem_cons_of_mem p hq)
    have hmj := mrAt_head done es junk blank
    rw [mruGo]
    rw [if_neg (by unfold PAPPL_MAX_SOURCE; omega)]
    by_cases hAp : A p = true
    · -- available source
      have hfc : List.filter A (p :: ps) = p :: ps.filter A := by
        simp [List.filter_cons, hAp]
      rw [hfc] at havail
      have hsrc : srcAt avail done.length = p := by
        rw [srcAt_drop, havail]
        rfl
      rw [if_pos (by rw [hsrc]; exact strcaseeq_refl p)]
      have havail2 : avail.drop (done.length + 1) = ps.filter A :=
        drop_succ_of_drop havail
      obtain ⟨e0, he0mem, he0m⟩ :=
        hfound p (List.mem_cons_self p ps) hAp
      have hscan : scanIdx p es < es.length := scan_lt_of_mem he0mem he0m
      obtain ⟨hsf1, hsf2, hsf3⟩ := scan_found p es hscan
      have hfound2 : ∀ s ∈ ps, A s = true →
          ∃ e ∈ removeFirst p es, strcaseeq s e.source = true := by
        intro s hs hAs
        obtain ⟨e1, he1mem, he1m⟩ :=
          hfound s (List.mem_cons_of_mem p hs) hAs
        refine ⟨e1, mem_removeFirst_of_not_match he1mem ?_, he1m⟩
        cases hpe : strcaseeq p e1.source
        · rfl
        · exfalso
          have : strcaseeq p s = true :=
            strcaseeq_trans hpe (strcaseeq_symm he1m)
          rw [hpw.1 s hs] at this
          exact Bool.false_ne_true this
      have hes2 : ∀ e ∈ removeFirst p es, e.source ≠ "" :=
        fun e he => hes e (mem_of_mem_removeFirst he)
      have hb2 : (done.length + 1) + (removeFirst p es).length ≤ 15 := by
        have := removeFirst_length hscan
        omega
      -- unfold the spec side
      rw [specGo]
      rw [if_pos hAp, hsf2]
      dsimp only
      by_cases hhead : strcaseeq p (es.headD blank).source = true
      · -- slot j already carries this source (line 1586 test is false)
        cases es with
        | nil =>
          exfalso
          simp only [List.headD_nil, hblank] at hhead
          rw [strcaseeq_empty_right hpne1] at hhead
          exact Bool.false_ne_true hhead
        | cons e rest =>
          simp only [List.headD_cons] at hhead
          rw [if_pos (by rw [hmj]; simpa using hhead)]
          have hscan0 : scanIdx p (e :: rest) = 0 := by
            rw [scanIdx, if_pos hhead]
          have hrm : removeFirst p (e :: rest) = rest := by
            rw [removeFirst, if_pos hhead]
          have het : (e :: rest).getD (scanIdx p (e :: rest)) blankCol = e := by
            rw [hscan0]
            rfl
          have hre : done ++ (e :: rest) ++ blank :: junk =
              (done ++ [e]) ++ rest ++ blank :: junk := by simp
          rw [hre]
          have hstep := ih avail (done ++ [e]) rest junk blank hblank
            (by simp at hb2 hb ⊢; omega)
            (by simpa using havail2) hpw.2 hpne2
            (by rw [hrm] at hes2; simpa using hes2)
            (by rw [hrm] at hfound2; simpa using hfound2)
          rw [List.length_append] at hstep
          simp only [List.length_singleton] at hstep
          rw [hstep, hrm, het]
          simp
      · -- pull the entry out of the undo region (lines 1593-1613)
        rw [if_neg (by rw [hmj]; simpa using hhead)]
        have hfu : findUndo (done ++ es ++ blank :: junk) p done.length =
            done.length + scanIdx p es := by
          unfold findUndo
          exact findUndoAux_decomp p es done junk blank PAPPL_MAX_SOURCE
            (by unfold PAPPL_MAX_SOURCE; omega) hblank hes
            (by unfold PAPPL_MAX_SOURCE; omega)
        rw [hfu]
        have hat : mrAt (done ++ es ++ blank :: junk)
            (done.length + scanIdx p es) =
            es.getD (scanIdx p es) blankCol := by
          rw [List.append_assoc, mrAt_decomp]
          exact List.getD_append es (blank :: junk) blankCol _ hscan
        rw [if_pos (by rw [hat]; exact hsf1)]
        rw [hat]
        rw [insertAt_decomp done es junk blank _ _ hscan, ← hsf3]
        have hre : done ++ [es.getD (scanIdx p es) blankCol] ++
            removeFirst p es ++ blank :: junk =
            (done ++ [es.getD (scanIdx p es) blankCol]) ++
              removeFirst p es ++ blank :: junk := by simp
        rw [hre]
        have hstep := ih avail (done ++ [es.getD (scanIdx p es) blankCol])
          (removeFirst p es) junk blank hblank
          (by simp; omega)
          (by simpa using havail2) hpw.2 hpne2 hes2 hfound2
        rw [List.length_append] at hstep
        simp only [List.length_singleton] at hstep
        rw [hstep]
        simp
    · -- unavailable source
      have hfc : List.filter A (p :: ps) = ps.filter A := by
        simp [List.filter_cons, hAp]
      rw [hfc] at havail
      have hsrc : strcaseeq p (srcAt avail done.length) = false := by
        rw [srcAt_drop, havail]
        cases hf : ps.filter A with
        | nil =>
          simp only [List.headD_nil]
          exact strcaseeq_empty_right hpne1
        | cons q r =>
          simp only [List.headD_cons]
          have hq : q ∈ ps := List.mem_of_mem_filter (hf ▸ List.mem_cons_self q r)
          exact hpw.1 q hq
      rw [if_neg (by rw [hsrc]; simp)]
      rw [specGo, if_neg hAp]
      by_cases hhead : strcaseeq p (es.headD blank).source = true
      · -- evict the head entry into the undo region (lines 1630-1649)
        cases es with
        | nil =>
          exfalso
          simp only [List.headD_nil, hblank] at hhead
          rw [strcaseeq_empty_right hpne1] at hhead
          exact Bool.false_ne_true hhead
        | cons e rest =>
          simp only [List.headD_cons] at hhead
          rw [if_pos (by rw [hmj]; simpa using hhead)]
          rw [if_pos (by simpa using hhead)]
          have hfe : findEnd (done ++ (e :: rest) ++ blank :: junk)
              done.length = done.length + 1 + rest.length := by
            unfold findEnd
            have hre : done ++ (e :: rest) ++ blank :: junk =
                (done ++ [e]) ++ rest ++ blank :: junk := by simp
            rw [hre]
            have := findEndAux_decomp rest (done ++ [e]) junk blank
              PAPPL_MAX_SOURCE
              (by simp at hb ⊢; unfold PAPPL_MAX_SOURCE; omega) hblank
              (fun x hx => hes x (List.mem_cons_of_mem e hx))
              (by simp at hb; unfold PAPPL_MAX_SOURCE; omega)
            rw [List.length_append] at this
            simp only [List.length_singleton] at this
            rw [this]
          rw [hfe, evictAt_decomp done rest junk blank e]
          have hstep := ih avail done (rest ++ [e]) junk blank hblank
            (by simp at hb ⊢; omega) havail hpw.2 hpne2
            (by
              intro x hx
              rcases List.mem_append.mp hx with hx | hx
              · exact hes x (List.mem_cons_of_mem e hx)
              · simp at hx
                subst hx
                exact hes x (List.mem_cons_self x rest))
            (by
              intro s hs hAs
              obtain ⟨e1, he1mem, he1m⟩ :=
                hfound s (List.mem_cons_of_mem p hs) hAs
              refine ⟨e1, ?_, he1m⟩
              rcases List.mem_cons.mp he1mem with hx | hx
              · subst hx
                simp
              · exact List.mem_append.mpr (Or.inl hx))
          rw [hstep]
          simp
      · -- neither available nor present: nothing happens (line 1650)
        rw [if_neg (by rw [hmj]; simpa using hhead)]
        rw [if_neg (by
          cases es with
          | nil =>
            simp only [List.headD_nil]
            rw [show blankCol.source = "" from rfl,
              strcaseeq_empty_right hpne1]
            simp
          | cons e rest =>
            simpa using hhead)]
        exact ih avail done es junk blank hblank hb havail hpw.2 hpne2 hes
          (fun s hs hAs => hfound s (List.mem_cons_of_mem p hs) hAs)

/-! Properties of `findEntry`, `removeFirst` and head rotation. These
relate the table contents across two successive walks. -/

theorem strcaseeq_symm_false {a b : String} (h : strcaseeq a b = false) :
    strcaseeq b a = false := by
  cases hc : strcaseeq b a
  · rfl
  · exfalso
    have h2 := strcaseeq_symm hc
    rw [h] at h2
    exact Bool.false_ne_true h2

theorem findEntry_matches {es : List MediaCol} {p : String} {e : MediaCol}
    (h : findEntry es p = some e) : strcaseeq p e.source = true := by
  unfold findEntry at h
  simpa using List.find?_some h

theorem findEntry_mem {es : List MediaCol} {p : String} {e : MediaCol}
    (h : findEntry es p = some e) : e ∈ es := by
  unfold findEntry at h
  exact List.mem_of_find?_eq_some h

theorem findEntry_isSome_of_mem {p : String} :
    ∀ {es : List MediaCol} {e : MediaCol}, e ∈ es →
      strcaseeq p e.source = true → ∃ x, findEntry es p = some x := by
  intro es
  induction es with
  | nil =>
    intro e he _
    simp at he
  | cons x rest ih =>
    intro e he hm
    by_cases hx : strcaseeq p x.source = true
    · exact ⟨x, by rw [findEntry_cons, if_pos hx]⟩
    · rcases List.mem_cons.mp he with h1 | h1
      · subst h1
        exact absurd hm hx
      · obtain ⟨y, hy⟩ := ih h1 hm
        exact ⟨y, by rw [findEntry_cons, if_neg hx]; exact hy⟩

theorem findEntry_eq_none {s : String} :
    ∀ {es : List MediaCol}, (∀ e ∈ es, strcaseeq s e.source = false) →
      findEntry es s = none := by
  intro es
  induction es with
  | nil =>
    intro _
    rfl
  | cons e rest ih =>
    intro h
    rw [findEntry_cons,
      if_neg (by simp [h e (List.mem_cons_self e rest)])]
    exact ih fun x hx => h x (List.mem_cons_of_mem e hx)

theorem findEntry_append (l1 l2 : List MediaCol) (s : String) :
    findEntry (l1 ++ l2) s =
      match findEntry l1 s with
      | some x => some x
      | none => findEntry l2 s := by
  induction l1 with
  | nil => rfl
  | cons e rest ih =>
    rw [List.cons_append, findEntry_cons, findEntry_cons]
    by_cases h : strcaseeq s e.source = true
    · rw [if_pos h, if_pos h]
    · rw [if_neg h, if_neg h, ih]

theorem findEntry_singleton (e : MediaCol) (s : String) :
    findEntry [e] s =
      if strcaseeq s e.source = true then some e else none := by
  rw [findEntry_cons]
  rfl

theorem findEntry_rotate_ne {e : MediaCol} (tail : List MediaCol)
    {s : String} (h : strcaseeq s e.source = false) :
    findEntry (tail ++ [e]) s = findEntry (e :: tail) s := by
  rw [findEntry_append, findEntry_singleton, if_neg (by simp [h]),
    findEntry_cons e tail s, if_neg (by simp [h])]
  cases hf : findEntry tail s <;> rfl

theorem findEntry_rotate_found {e : MediaCol} (tail : List MediaCol)
    {s : String} (h : strcaseeq s e.source = true)
    (hd : ∀ x ∈ tail, strcaseeq x.source e.source = false) :
    findEntry (tail ++ [e]) s = some e := by
  have hnone : findEntry tail s = none := by
    apply findEntry_eq_none
    intro x hx
    cases hc : strcaseeq s x.source
    · rfl
    · exfalso
      have h2 := strcaseeq_trans (strcaseeq_symm hc) h
      rw [hd x hx] at h2
      exact Bool.false_ne_true h2
  rw [findEntry_append, hnone, findEntry_singleton, if_pos h]

theorem findEntry_removeFirst_ne {s q : String}
    (hne : strcaseeq s q = false) :
    ∀ es : List MediaCol,
      findEntry (removeFirst q es) s = findEntry es s := by
  intro es
  induction es with
  | nil => rfl
  | cons e rest ih =>
    rw [removeFirst]
    by_cases hq : strcaseeq q e.source = true
    · rw [if_pos hq]
      have hse : strcaseeq s e.source = false := by
        cases hc : strcaseeq s e.source
        · rfl
        · exfalso
          have h2 := strcaseeq_trans hc (strcaseeq_symm hq)
          rw [hne] at h2
          exact Bool.false_ne_true h2
      rw [findEntry_cons, if_neg (by simp [hse])]
    · rw [if_neg hq, findEntry_cons, findEntry_cons, ih]

theorem removeFirst_sublist (p : String) :
    ∀ es : List MediaCol, (removeFirst p es).Sublist es := by
  intro es
  induction es with
  | nil => simp [removeFirst]
  | cons e rest ih =>
    rw [removeFirst]
    split
    · exact List.Sublist.cons e (List.Sublist.refl rest)
    · exact ih.cons₂ e

theorem pairwise_rotate {e : MediaCol} {tail : List MediaCol}
    (h : (e :: tail).Pairwise
      (fun a b => strcaseeq a.source b.source = false)) :
    (tail ++ [e]).Pairwise
      (fun a b => strcaseeq a.source b.source = false) := by
  rw [List.pairwise_cons] at h
  apply List.pairwise_append.mpr
  refine ⟨h.2, List.pairwise_singleton _ _, ?_⟩
  intro a ha b hb
  rw [List.mem_singleton] at hb
  subst hb
  exact strcaseeq_symm_false (h.1 a ha)

/-! Unfolding equations for `specGo`. -/

theorem specGo_nil (A : String → Bool) (defCol : MediaCol)
    (es : List MediaCol) : specGo A defCol [] es = ([], es) := rfl

theorem specGo_cons_avail_found {A : String → Bool} {p : String}
    {es : List MediaCol} {x : MediaCol} (defCol : MediaCol)
    (ps : List String) (hA : A p = true) (hf : findEntry es p = some x) :
    specGo A defCol (p :: ps) es =
      (x :: (specGo A defCol ps (removeFirst p es)).1,
       (specGo A defCol ps (removeFirst p es)).2) := by
  rw [specGo, if_pos hA, hf]
  rfl

theorem specGo_cons_avail_none {A : String → Bool} {p : String}
    {es : List MediaCol} (defCol : MediaCol) (ps : List String)
    (hA : A p = true) (hf : findEntry es p = none) :
    specGo A defCol (p :: ps) es =
      ({ defCol with source := p } :: (specGo A defCol ps es).1,
       (specGo A defCol ps es).2) := by
  rw [specGo, if_pos hA, hf]
  rfl

theorem specGo_cons_unavail_head {A : String → Bool} {p : String}
    (defCol : MediaCol) (ps : List String) (es : List MediaCol)
    (hA : A p = false)
    (hh : strcaseeq p ((es.headD blankCol).source) = true) :
    specGo A defCol (p :: ps) es =
      specGo A defCol ps (es.tail ++ [es.headD blankCol]) := by
  rw [specGo, if_neg (by simp [hA]), if_pos hh]

theorem specGo_cons_unavail_skip {A : String → Bool} {p : String}
    (defCol : MediaCol) (ps : List String) (es : List MediaCol)
    (hA : A p = false)
    (hh : strcaseeq p ((es.headD blankCol).source) = false) :
    specGo A defCol (p :: ps) es = specGo A defCol ps es := by
  rw [specGo, if_neg (by simp [hA]), if_neg (by rw [hh]; simp)]

theorem findEntry_getD_matches (es : List MediaCol) (defCol : MediaCol)
    (s : String) :
    strcaseeq s ((findEntry es s).getD
      { defCol with source := s }).source = true := by
  cases hf : findEntry es s with
  | some x =>
    rw [Option.getD_some]
    exact findEntry_matches hf
  | none =>
    rw [Option.getD_none]
    exact strcaseeq_refl s

theorem findEntry_getD_source_ne {es : List MediaCol} {defCol : MediaCol}
    {s : String} (hs : s ≠ "") (hes : ∀ e ∈ es, e.source ≠ "") :
    ((findEntry es s).getD { defCol with source := s }).source ≠ "" := by
  cases hf : findEntry es s with
  | some x =>
    rw [Option.getD_some]
    exact hes x (findEntry_mem hf)
  | none =>
    rw [Option.getD_none]
    exact hs

theorem headD_nil_not_match {p : String} (hp : p ≠ "")
    (hh : strcaseeq p (((List.nil : List MediaCol)).headD blankCol).source
      = true) : False := by
  have hh2 : strcaseeq p "" = true := hh
  rw [strcaseeq_empty_right hp] at hh2
  exact Bool.false_ne_true hh2

/-- The active part produced by one walk is, in order, one entry per
available source: the entry pulled out of the incoming region when there
is one, and a fresh default entry otherwise. -/
theorem specGo_active (A : String → Bool) (defCol : MediaCol) :
    ∀ (ps : List String) (es : List MediaCol),
      ps.Pairwise (fun a b => strcaseeq a b = false) →
      (∀ p ∈ ps, p ≠ "") →
      (specGo A defCol ps es).1 =
        (ps.filter A).map
          (fun s => (findEntry es s).getD { defCol with source := s }) := by
  intro ps
  induction ps with
  | nil =>
    intro es _ _
    rfl
  | cons p ps ih =>
    intro es hpw hne
    rw [List.pairwise_cons] at hpw
    have hne2 : ∀ q ∈ ps, q ≠ "" :=
      fun q hq => hne q (List.mem_cons_of_mem p hq)
    by_cases hA : A p = true
    · rw [List.filter_cons, if_pos hA]
      cases hf : findEntry es p with
      | some x =>
        rw [specGo_cons_avail_found defCol ps hA hf, List.map_cons, hf,
          Option.getD_some, ih (removeFirst p es) hpw.2 hne2]
        have hmap : ∀ s ∈ ps.filter A,
            (findEntry (removeFirst p es) s).getD
              { defCol with source := s } =
            (findEntry es s).getD { defCol with source := s } := by
          intro s hs
          rw [findEntry_removeFirst_ne
            (strcaseeq_symm_false (hpw.1 s (List.mem_of_mem_filter hs))) es]
        rw [List.map_congr_left hmap]
      | none =>
        rw [specGo_cons_avail_none defCol ps hA hf, List.map_cons, hf,
          Option.getD_none, ih es hpw.2 hne2]
    · have hA' : A p = false := by
        revert hA
        cases A p <;> simp
      rw [List.filter_cons, if_neg hA]
      by_cases hh : strcaseeq p ((es.headD blankCol).source) = true
      · cases es with
        | nil =>
          exact (headD_nil_not_match
            (hne p (List.mem_cons_self p ps)) hh).elim
        | cons e tl =>
          rw [specGo_cons_unavail_head defCol ps (e :: tl) hA' hh]
          simp only [List.headD_cons, List.tail_cons]
          rw [ih (tl ++ [e]) hpw.2 hne2]
          have hpe : strcaseeq p e.source = true := by simpa using hh
          have hmap : ∀ s ∈ ps.filter A,
              (findEntry (tl ++ [e]) s).getD { defCol with source := s } =
              (findEntry (e :: tl) s).getD { defCol with source := s } := by
            intro s hs
            have hsp : strcaseeq s p = false :=
              strcaseeq_symm_false (hpw.1 s (List.mem_of_mem_filter hs))
            have hse : strcaseeq s e.source = false := by
              cases hc : strcaseeq s e.source
              · rfl
              · exfalso
                have h2 := strcaseeq_trans hc (strcaseeq_symm hpe)
                rw [hsp] at h2
                exact Bool.false_ne_true h2
            rw [findEntry_rotate_ne tl hse]
          rw [List.map_congr_left hmap]
      · have hh' : strcaseeq p ((es.headD blankCol).source) = false := by
          revert hh
          cases strcaseeq p ((es.headD blankCol).source) <;> simp
        rw [specGo_cons_unavail_skip defCol ps es hA' hh']
        exact ih es hpw.2 hne2

/-- When every available source already has an entry, the walk neither
creates nor destroys entries. -/
theorem specGo_length (A : String → Bool) (defCol : MediaCol) :
    ∀ (ps : List String) (es : List MediaCol),
      ps.Pairwise (fun a b => strcaseeq a b = false) →
      (∀ p ∈ ps, p ≠ "") →
      (∀ s ∈ ps, A s = true → ∃ e ∈ es, strcaseeq s e.source = true) →
      (specGo A defCol ps es).1.length +
        (specGo A defCol ps es).2.length = es.length := by
  intro ps
  induction ps with
  | nil =>
    intro es _ _ _
    simp [specGo_nil]
  | cons p ps ih =>
    intro es hpw hne hfound
    rw [List.pairwise_cons] at hpw
    have hne2 : ∀ q ∈ ps, q ≠ "" :=
      fun q hq => hne q (List.mem_cons_of_mem p hq)
    by_cases hA : A p = true
    · obtain ⟨e0, he0, hm0⟩ := hfound p (List.mem_cons_self p ps) hA
      obtain ⟨x, hx⟩ := findEntry_isSome_of_mem he0 hm0
      rw [specGo_cons_avail_found defCol ps hA hx]
      have hfound2 : ∀ s ∈ ps, A s = true →
          ∃ e ∈ removeFirst p es, strcaseeq s e.source = true := by
        intro s hs hAs
        obtain ⟨e1, he1, hm1⟩ := hfound s (List.mem_cons_of_mem p hs) hAs
        refine ⟨e1, ?_, hm1⟩
        apply mem_removeFirst_of_not_match he1
        cases hc : strcaseeq p e1.source
        · rfl
        · exfalso
          have h2 := strcaseeq_trans hc (strcaseeq_symm hm1)
          rw [hpw.1 s hs] at h2
          exact Bool.false_ne_true h2
      have hlen := removeFirst_length
        (scan_lt_of_mem (findEntry_mem hx) (findEntry_matches hx))
      have hrec := ih (removeFirst p es) hpw.2 hne2 hfound2
      simp only [List.length_cons]
      omega
    · have hA' : A p = false := by
        revert hA
        cases A p <;> simp
      by_cases hh : strcaseeq p ((es.headD blankCol).source) = true
      · cases es with
        | nil =>
          exact (headD_nil_not_match
            (hne p (List.mem_cons_self p ps)) hh).elim
        | cons e tl =>
          rw [specGo_cons_unavail_head defCol ps (e :: tl) hA' hh]
          simp only [List.headD_cons, List.tail_cons]
          have hfound2 : ∀ s ∈ ps, A s = true →
              ∃ e1 ∈ tl ++ [e], strcaseeq s e1.source = true := by
            intro s hs hAs
            obtain ⟨e1, he1, hm1⟩ :=
              hfound s (List.mem_cons_of_mem p hs) hAs
            refine ⟨e1, ?_, hm1⟩
            rcases List.mem_cons.mp he1 with h1 | h1
            · subst h1
              simp
            · simp [h1]
          have hrec := ih (tl ++ [e]) hpw.2 hne2 hfound2
          simp only [List.length_append, List.length_cons,
            List.length_nil] at hrec ⊢
          omega
      · have hh' : strcaseeq p ((es.headD blankCol).source) = false := by
          revert hh
          cases strcaseeq p ((es.headD blankCol).source) <;> simp
        rw [specGo_cons_unavail_skip defCol ps es hA' hh']
        exact ih es hpw.2 hne2 fun s hs hAs =>
          hfound s (List.mem_cons_of_mem p hs) hAs

/-- Every entry left in the undo region came from the incoming region. -/
theorem specGo_undo_mem (A : String → Bool) (defCol : MediaCol) :
    ∀ (ps : List String) (es : List MediaCol),
      (∀ p ∈ ps, p ≠ "") →
      ∀ e ∈ (specGo A defCol ps es).2, e ∈ es := by
  intro ps
  induction ps with
  | nil =>
    intro es _ e he
    simpa [specGo_nil] using he
  | cons p ps ih =>
    intro es hne e he
    have hne2 : ∀ q ∈ ps, q ≠ "" :=
      fun q hq => hne q (List.mem_cons_of_mem p hq)
    by_cases hA : A p = true
    · cases hf : findEntry es p with
      | some x =>
        rw [specGo_cons_avail_found defCol ps hA hf] at he
        exact mem_of_mem_removeFirst (ih (removeFirst p es) hne2 e he)
      | none =>
        rw [specGo_cons_avail_none defCol ps hA hf] at he
        exact ih es hne2 e he
    · have hA' : A p = false := by
        revert hA
        cases A p <;> simp
      by_cases hh : strcaseeq p ((es.headD blankCol).source) = true
      · cases es with
        | nil =>
          exact (headD_nil_not_match
            (hne p (List.mem_cons_self p ps)) hh).elim
        | cons e1 tl =>
          rw [specGo_cons_unavail_head defCol ps (e1 :: tl) hA' hh] at he
          simp only [List.headD_cons, List.tail_cons] at he
          have hmem := ih (tl ++ [e1]) hne2 e he
          rcases List.mem_append.mp hmem with h1 | h1
          · exact List.mem_cons_of_mem e1 h1
          · rw [List.mem_singleton] at h1
            subst h1
            exact List.mem_cons_self e tl
      · have hh' : strcaseeq p ((es.headD blankCol).source) = false := by
          revert hh
          cases strcaseeq p ((es.headD blankCol).source) <;> simp
        rw [specGo_cons_unavail_skip defCol ps es hA' hh'] at he
        exact ih es hne2 e he

/-- A walk in which no processed available source matches `S` does not
change which entry a lookup of `S` in the undo region finds. -/
theorem specGo_findEntry (A : String → Bool) (defCol : MediaCol)
    (S : String) :
    ∀ (ps : List String) (es : List MediaCol),
      (∀ p ∈ ps, p ≠ "") →
      es.Pairwise (fun a b => strcaseeq a.source b.source = false) →
      (∀ p ∈ ps, A p = true → strcaseeq p S = false) →
      findEntry (specGo A defCol ps es).2 S = findEntry es S := by
  intro ps
  induction ps with
  | nil =>
    intro es _ _ _
    rfl
  | cons p ps ih =>
    intro es hne hdist hS
    have hne2 : ∀ q ∈ ps, q ≠ "" :=
      fun q hq => hne q (List.mem_cons_of_mem p hq)
    have hS2 : ∀ q ∈ ps, A q = true → strcaseeq q S = false :=
      fun q hq => hS q (List.mem_cons_of_mem p hq)
    by_cases hA : A p = true
    · cases hf : findEntry es p with
      | some x =>
        rw [specGo_cons_avail_found defCol ps hA hf]
        rw [ih (removeFirst p es) hne2
          (List.Pairwise.sublist (removeFirst_sublist p es) hdist) hS2]
        exact findEntry_removeFirst_ne
          (strcaseeq_symm_false (hS p (List.mem_cons_self p ps) hA)) es
      | none =>
        rw [specGo_cons_avail_none defCol ps hA hf]
        exact ih es hne2 hdist hS2
    · have hA' : A p = false := by
        revert hA
        cases A p <;> simp
      by_cases hh : strcaseeq p ((es.headD blankCol).source) = true
      · cases es with
        | nil =>
          exact (headD_nil_not_match
            (hne p (List.mem_cons_self p ps)) hh).elim
        | cons e tl =>
          rw [specGo_cons_unavail_head defCol ps (e :: tl) hA' hh]
          simp only [List.headD_cons, List.tail_cons]
          rw [ih (tl ++ [e]) hne2 (pairwise_rotate hdist) hS2]
          by_cases hms : strcaseeq S e.source = true
          · have hd : ∀ x ∈ tl, strcaseeq x.source e.source = false := by
              intro x hx
              rw [List.pairwise_cons] at hdist
              exact strcaseeq_symm_false (hdist.1 x hx)
            rw [findEntry_rotate_found tl hms hd, findEntry_cons,
              if_pos hms]
          · have hms' : strcaseeq S e.source = false := by
              revert hms
              cases strcaseeq S e.source <;> simp
            exact findEntry_rotate_ne tl hms'
      · have hh' : strcaseeq p ((es.headD blankCol).source) = false := by
          revert hh
          cases strcaseeq p ((es.headD blankCol).source) <;> simp
        rw [specGo_cons_unavail_skip defCol ps es hA' hh']
        exact ih es hne2 hdist hS2

theorem forall2_map_self {l : List String} {f : String → MediaCol}
    (h : ∀ s ∈ l, strcaseeq s (f s).source = true) :
    List.Forall₂ (fun s e => strcaseeq s e.source = true) l (l.map f) := by
  induction l with
  | nil => exact List.Forall₂.nil
  | cons a l ih =>
    rw [List.map_cons]
    exact List.Forall₂.cons (h a (List.mem_cons_self a l))
      (ih fun s hs => h s (List.mem_cons_of_mem a hs))

/-- After a walk, the active part matches the available sources
one-for-one, in order, case-insensitively. -/
theorem specGo_forall2 (A : String → Bool) (defCol : MediaCol)
    (ps : List String) (es : List MediaCol)
    (hpw : ps.Pairwise (fun a b => strcaseeq a b = false))
    (hne : ∀ p ∈ ps, p ≠ "") :
    List.Forall₂ (fun s e => strcaseeq s e.source = true)
      (ps.filter A) (specGo A defCol ps es).1 := by
  rw [specGo_active A defCol ps es hpw hne]
  exact forall2_map_self fun s _ => findEntry_getD_matches es defCol s

/-- A lookup of `S` never hits the active part of a walk in which no
available source matches `S`. -/
theorem findEntry_active_none {A : String → Bool} {S : String}
    (defCol : MediaCol) (ps : List String) (es : List MediaCol)
    (hpw : ps.Pairwise (fun a b => strcaseeq a b = false))
    (hne : ∀ p ∈ ps, p ≠ "")
    (hS : ∀ p ∈ ps, A p = true → strcaseeq p S = false) :
    findEntry (specGo A defCol ps es).1 S = none := by
  apply findEntry_eq_none
  intro e he
  rw [specGo_active A defCol ps es hpw hne] at he
  obtain ⟨s, hs, hfs⟩ := List.mem_map.mp he
  subst hfs
  have hsS : strcaseeq s S = false :=
    hS s (List.mem_of_mem_filter hs) (List.of_mem_filter hs)
  have hmatch := findEntry_getD_matches es defCol s
  cases hc : strcaseeq S
      ((findEntry es s).getD { defCol with source := s }).source
  · rfl
  · exfalso
    have h2 := strcaseeq_trans hc (strcaseeq_symm hmatch)
    have h3 := strcaseeq_symm h2
    rw [hsS] at h3
    exact Bool.false_ne_true h3

/-- `mediaReadyUpdate` on a well-formed table is the spec-level walk on
the nonblank region, with the blank terminator and the junk after it
untouched. -/
theorem mediaReadyUpdate_decomp (A : String → Bool) (avail : List String)
    (defCol blank : MediaCol) (es junk : List MediaCol) (ps : List String)
    (hblank : blank.source = "")
    (hb : es.length ≤ 15)
    (havail : avail = ps.filter A)
    (hppd : ps.Pairwise (fun a b => strcaseeq a b = false))
    (hpne : ∀ p ∈ ps, p ≠ "")
    (hes : ∀ e ∈ es, e.source ≠ "")
    (hfound : ∀ s ∈ ps, A s = true → ∃ e ∈ es, strcaseeq s e.source = true) :
    mediaReadyUpdate ps avail defCol (es ++ blank :: junk) =
      (specGo A defCol ps es).1 ++ (specGo A defCol ps es).2 ++
        blank :: junk := by
  have h := mruGo_decomp A defCol ps avail [] es junk blank hblank
    (by simpa using hb) (by simpa using havail) hppd hpne hes hfound
  simpa [mediaReadyUpdate] using h

/-- C2: undo-table fidelity of the media-ready reprojection (lines
1575-1667). Starting from a well-formed table `act0 ++ undo0 ++ blank ::
junk0` whose entry sources are pairwise distinct and in which every
available source (predicate `A0`) has an entry, remove source `S` from
the accessory configuration (predicate `fun t => A0 t && ! strcaseeq t
S`), run the update, then restore `S` and run it again. Then (i) after
the first update the active prefix consists of exactly the then-available
sources in model order, (ii) after the second update the active prefix
consists of exactly the originally available sources in model order, and
(iii) the entry in `S`'s slot after the second update is byte-identical
to `S`'s entry `E` before the removal. -/
theorem claim_C2_theorem
    (ppd : List String) (S : String) (A0 : String → Bool)
    (defCol E blank : MediaCol) (act0 undo0 junk0 : List MediaCol)
    (hppd : ppd.Pairwise (fun a b => strcaseeq a b = false))
    (hpne : ∀ p ∈ ppd, p ≠ "")
    (hSne : S ≠ "")
    (hblank : blank.source = "")
    (hlen : act0.length + undo0.length ≤ 15)
    (hsrc0 : ∀ e ∈ act0 ++ undo0, e.source ≠ "")
    (hdist : (act0 ++ undo0).Pairwise
      (fun a b => strcaseeq a.source b.source = false))
    (hfound0 : ∀ s ∈ ppd, A0 s = true →
      ∃ e ∈ act0 ++ undo0, strcaseeq s e.source = true)
    (hE : findEntry (act0 ++ undo0) S = some E) :
    List.Forall₂ (fun s e => strcaseeq s e.source = true)
      (ppd.filter (fun t => A0 t && ! strcaseeq t S))
      ((mediaReadyUpdate ppd
          (ppd.filter (fun t => A0 t && ! strcaseeq t S)) defCol
          (act0 ++ undo0 ++ blank :: junk0)).take
        (ppd.filter (fun t => A0 t && ! strcaseeq t S)).length) ∧
    List.Forall₂ (fun s e => strcaseeq s e.source = true)
      (ppd.filter A0)
      ((mediaReadyUpdate ppd (ppd.filter A0) defCol
          (mediaReadyUpdate ppd
            (ppd.filter (fun t => A0 t && ! strcaseeq t S)) defCol
            (act0 ++ undo0 ++ blank :: junk0))).take
        (ppd.filter A0).length) ∧
    (∀ i, (ppd.filter A0).getD i "" = S →
      (mediaReadyUpdate ppd (ppd.filter A0) defCol
          (mediaReadyUpdate ppd
            (ppd.filter (fun t => A0 t && ! strcaseeq t S)) defCol
            (act0 ++ undo0 ++ blank :: junk0))).getD i blankCol = E) := by
  set A1 : String → Bool := fun t => A0 t && ! strcaseeq t S with hA1
  have hS1 : ∀ p ∈ ppd, A1 p = true → strcaseeq p S = false := by
    intro p _ hp
    rw [hA1] at hp
    simp only [Bool.and_eq_true, Bool.not_eq_true'] at hp
    exact hp.2
  have hfound1 : ∀ s ∈ ppd, A1 s = true →
      ∃ e ∈ act0 ++ undo0, strcaseeq s e.source = true := by
    intro s hs hA
    rw [hA1] at hA
    simp only [Bool.and_eq_true] at hA
    exact hfound0 s hs hA.1
  have h1 := mediaReadyUpdate_decomp A1 (ppd.filter A1) defCol blank
    (act0 ++ undo0) junk0 ppd hblank (by simpa using hlen) rfl
    hppd hpne hsrc0 hfound1
  set act1 := (specGo A1 defCol ppd (act0 ++ undo0)).1 with hact1
  set undo1 := (specGo A1 defCol ppd (act0 ++ undo0)).2 with hundo1
  have hlen1 : act1.length + undo1.length = (act0 ++ undo0).length := by
    rw [hact1, hundo1]
    exact specGo_length A1 defCol ppd (act0 ++ undo0) hppd hpne hfound1
  have hsrc1 : ∀ e ∈ act1 ++ undo1, e.source ≠ "" := by
    intro e he
    rcases List.mem_append.mp he with h | h
    · rw [hact1,
        specGo_active A1 defCol ppd (act0 ++ undo0) hppd hpne] at h
      obtain ⟨s, hs, hfs⟩ := List.mem_map.mp h
      subst hfs
      exact findEntry_getD_source_ne
        (hpne s (List.mem_of_mem_filter hs)) hsrc0
    · rw [hundo1] at h
      exact hsrc0 e (specGo_undo_mem A1 defCol ppd (act0 ++ undo0) hpne e h)
  have hundoE : findEntry undo1 S = some E := by
    rw [hundo1,
      specGo_findEntry A1 defCol S ppd (act0 ++ undo0) hpne hdist hS1]
    exact hE
  have hchain : findEntry (act1 ++ undo1) S = some E := by
    rw [findEntry_append, hact1,
      findEntry_active_none defCol ppd (act0 ++ undo0) hppd hpne hS1]
    exact hundoE
  have hfound2 : ∀ s ∈ ppd, A0 s = true →
      ∃ e ∈ act1 ++ undo1, strcaseeq s e.source = true := by
    intro s hs hA
    by_cases hsS : strcaseeq s S = true
    · exact ⟨E, List.mem_append.mpr (Or.inr (findEntry_mem hundoE)),
        strcaseeq_trans hsS (findEntry_matches hundoE)⟩
    · have hsS' : strcaseeq s S = false := by
        revert hsS
        cases strcaseeq s S <;> simp
      have hA1s : A1 s = true := by
        rw [hA1]
        simp [hA, hsS']
      refine ⟨(findEntry (act0 ++ undo0) s).getD
        { defCol with source := s },
        List.mem_append.mpr (Or.inl ?_), findEntry_getD_matches _ defCol s⟩
      rw [hact1, specGo_active A1 defCol ppd (act0 ++ undo0) hppd hpne]
      exact List.mem_map_of_mem _ (List.mem_filter.mpr ⟨hs, hA1s⟩)
  have h2 := mediaReadyUpdate_decomp A0 (ppd.filter A0) defCol blank
    (act1 ++ undo1) junk0 ppd hblank
    (by
      simp only [List.length_append]
      simp only [List.length_append] at hlen1
      omega) rfl hppd hpne hsrc1 hfound2
  set act2 := (specGo A0 defCol ppd (act1 ++ undo1)).1 with hact2
  have halen1 : act1.length = (ppd.filter A1).length := by
    rw [hact1, specGo_active A1 defCol ppd (act0 ++ undo0) hppd hpne,
      List.length_map]
  have halen2 : act2.length = (ppd.filter A0).length := by
    rw [hact2, specGo_active A0 defCol ppd (act1 ++ undo1) hppd hpne,
      List.length_map]
  refine ⟨?_, ?_, ?_⟩
  · rw [h1, List.append_assoc, List.take_left' halen1, hact1]
    exact specGo_forall2 A1 defCol ppd (act0 ++ undo0) hppd hpne
  · rw [h1, h2, List.append_assoc, List.take_left' halen2, hact2]
    exact specGo_forall2 A0 defCol ppd (act1 ++ undo1) hppd hpne
  · intro i hi
    rw [h1, h2]
    have hilt : i < (ppd.filter A0).length := by
      by_contra hge
      push_neg at hge
      rw [List.getD_eq_default _ _ hge] at hi
      exact hSne hi.symm
    rw [List.append_assoc,
      List.getD_append _ _ _ _ (by rw [halen2]; exact hilt)]
    rw [hact2, specGo_active A0 defCol ppd (act1 ++ undo1) hppd hpne]
    rw [List.getD_eq_getElem?_getD, List.getElem?_map]
    have hidx : (ppd.filter A0)[i]? = some S := by
      rw [List.getElem?_eq_getElem hilt]
      rw [List.getD_eq_getElem _ _ hilt] at hi
      rw [hi]
    rw [hidx]
    simp only [Option.map_some', Option.getD_some]
    show (findEntry (act1 ++ undo1) S).getD
      { defCol with source := S } = E
    rw [hchain, Option.getD_some]

def ppdC2 : List String := ["tray-1", "tray-2", "tray-3"]

def actC2 : List MediaCol :=
  [{ source := "tray-1", payload := 11 },
   { source := "tray-2", payload := 22 },
   { source := "tray-3", payload := 33 }]

theorem claim_C2_witness :
    (mediaReadyUpdate ppdC2 (ppdC2.filter (fun _ => true)) blankCol
        (mediaReadyUpdate ppdC2
          (ppdC2.filter (fun t => true && ! strcaseeq t "tray-2")) blankCol
          (actC2 ++ [] ++ blankCol :: List.replicate 12 blankCol))).getD 1
      blankCol = { source := "tray-2", payload := 22 } := by
  have h := claim_C2_theorem ppdC2 "tray-2" (fun _ => true) blankCol
    { source := "tray-2", payload := 22 } blankCol actC2 []
    (List.replicate 12 blankCol)
    (by decide) (by decide) (by decide) rfl (by decide) (by decide)
    (by decide) (by decide) rfl
  exact h.2.2 1 (by decide)
